import Mathlib

/-!
Verification of the `iprange` library (`src/JavaScript/iprange.js`).

JavaScript strings are modelled as `List Char`; JavaScript numbers occurring
in this library are exact integers below 2^53 except for `NaN`, so a number
that may be `NaN` is modelled as `Option Int` (`none` = `NaN`) and numbers
on the non-`NaN` paths as `Nat`.  All arithmetic in the source is on
nonnegative integers below 2^53 (IPv4) or on `BigInt` (IPv6), where
JavaScript `Math.trunc(x / y)` agrees with natural-number division.
-/

namespace IPRange

/-- Model of JavaScript `String.prototype.split` with a one-character
separator: `splitOnChar sep s` never returns `[]`; splitting the empty
string gives `[[]]`, exactly as `''.split(sep)` gives `['']`. -/
def splitOnChar (sep : Char) : List Char → List (List Char)
  | [] => [[]]
  | c :: cs =>
    if c = sep then [] :: splitOnChar sep cs
    else
      match splitOnChar sep cs with
      | [] => [[c]]
      | g :: gs => (c :: g) :: gs

theorem splitOnChar_ne_nil (sep : Char) (s : List Char) : splitOnChar sep s ≠ [] := by
  cases s with
  | nil => simp [splitOnChar]
  | cons c cs =>
    simp only [splitOnChar]
    split
    · simp
    · cases h : splitOnChar sep cs <;> simp

/-- Decimal digit test, `c >= '0' && c <= '9'` on code points. -/
def isDecDigit (c : Char) : Bool := '0' ≤ c && c ≤ '9'

/-- Numeric value of a decimal digit character. -/
def decVal (c : Char) : Nat := c.toNat - '0'.toNat

/-- Whitespace skipped by JavaScript `parseInt` (the ASCII part; the other
code points JavaScript would also skip cannot occur in the claims). -/
def isJSSpace (c : Char) : Bool :=
  c = ' ' || c = '\t' || c = '\n' || c = '\r' || c = '\x0b' || c = '\x0c'

/-- Longest-digit-run accumulator of `parseInt`: consumes decimal digits
from the front, stops (and keeps the value) at the first non-digit. -/
def parseDigitRun (acc : Nat) : List Char → Nat
  | [] => acc
  | c :: cs => if isDecDigit c then parseDigitRun (acc * 10 + decVal c) cs else acc

/-- Digit-run head: `none` (= NaN) when no leading decimal digit exists. -/
def parseDigitsHead : List Char → Option Nat
  | [] => none
  | c :: cs => if isDecDigit c then some (parseDigitRun (decVal c) cs) else none

/-- Model of JavaScript `parseInt(s, 10)`: skip whitespace, optional sign,
then the longest decimal-digit run; `none` models `NaN`. -/
def parseIntDec (s : List Char) : Option Int :=
  match s.dropWhile isJSSpace with
  | [] => none
  | c :: rest =>
    if c = '-' then (parseDigitsHead rest).map (fun n => -(n : Int))
    else if c = '+' then (parseDigitsHead rest).map (fun n => (n : Int))
    else (parseDigitsHead (c :: rest)).map (fun n => (n : Int))

/-- Embeds `_isIPv4Addr` (iprange.js lines 224-236): split on `'.'`, require
exactly four groups, and reject a group only when its `parseInt` value
satisfies `v >= 256 || v < 0`; a `NaN` group (`none`) fails both comparisons
in JavaScript and is therefore NOT rejected, which this model reproduces. -/
def isIPv4Addr (s : List Char) : Bool :=
  let arr := splitOnChar '.' s
  if arr.length ≠ 4 then false
  else arr.all fun g =>
    match parseIntDec g with
    | none => true
    | some v => !(v ≥ 256 || v < 0)

/-- Lowercase-hex-or-digit test used by `_isIPv6Addr` on each of the four
characters of a group: `(c >= '0' && c <= '9') || (c >= 'a' && c <= 'f')`. -/
def isLowHexDigit (c : Char) : Bool :=
  ('0' ≤ c && c ≤ '9') || ('a' ≤ c && c ≤ 'f')

/-- Embeds `_isIPv6Addr` (iprange.js lines 253-278): split on `':'`, require
exactly eight groups, each of exactly four characters, each character a
decimal digit or a lowercase `a`-`f`. -/
def isIPv6Addr (s : List Char) : Bool :=
  let arr := splitOnChar ':' s
  if arr.length ≠ 8 then false
  else arr.all fun g => g.length = 4 && g.all isLowHexDigit

/-- Character of a single digit value, as produced by JavaScript
`Number.prototype.toString(radix)`: `0`-`9` then lowercase `a`-`f`. -/
def digitChar (d : Nat) : Char :=
  if d < 10 then Char.ofNat ('0'.toNat + d) else Char.ofNat ('a'.toNat + (d - 10))

/-- Little-endian digit characters of `n` in base `b`, with fuel (the fuel
is an implementation device; `natToCharsRev b fuel n` is independent of
`fuel` once `n ≤ fuel`). -/
def natToCharsRev (b : Nat) : Nat → Nat → List Char
  | 0, _ => []
  | fuel + 1, n => if n = 0 then [] else digitChar (n % b) :: natToCharsRev b fuel (n / b)

/-- Model of JavaScript `n.toString(b)` for a nonnegative integer `n`:
minimal digits, `"0"` for zero, lowercase letters. -/
def natToChars (b n : Nat) : List Char :=
  if n = 0 then ['0'] else (natToCharsRev b n n).reverse

/-- Embeds `_toIPv4AddrString` (iprange.js lines 310-315).  JavaScript
`x >>> k` first coerces to Uint32 (hence the `% 2^32`) and then shifts, so
`(x >>> 24) & 0xFF` is `x % 2^32 / 2^24 % 256`, and so on. -/
def toIPv4AddrString (n : Nat) : List Char :=
  let m := n % 4294967296
  natToChars 10 (m / 16777216 % 256) ++ '.' :: natToChars 10 (m / 65536 % 256)
    ++ '.' :: natToChars 10 (m / 256 % 256) ++ '.' :: natToChars 10 (m % 256)

/-- Embeds `_toIPv4AddrInteger` (iprange.js lines 291-297): `parseInt` each
of the four dot-groups and combine; the result is `NaN` (`none`) exactly
when some group parses to `NaN` (an out-of-bounds index gives `undefined`,
whose `parseInt` is also `NaN`). -/
def toIPv4AddrInteger (s : List Char) : Option Int :=
  let arr := splitOnChar '.' s
  match arr[0]?.bind parseIntDec, arr[1]?.bind parseIntDec,
      arr[2]?.bind parseIntDec, arr[3]?.bind parseIntDec with
  | some a, some b, some c, some d => some (a * 16777216 + b * 65536 + c * 256 + d)
  | _, _, _, _ => none

/-- Hex digit value as accepted by JavaScript `BigInt('0x…')` (either case). -/
def hexVal? (c : Char) : Option Nat :=
  if c ≤ '9' && '0' ≤ c then some (c.toNat - '0'.toNat)
  else if c ≤ 'f' && 'a' ≤ c then some (c.toNat - 'a'.toNat + 10)
  else if c ≤ 'F' && 'A' ≤ c then some (c.toNat - 'A'.toNat + 10)
  else none

/-- Hex accumulator: value of a hex-digit list, `none` on a bad character. -/
def hexRun (acc : Nat) : List Char → Option Nat
  | [] => some acc
  | c :: cs =>
    match hexVal? c with
    | some d => hexRun (acc * 16 + d) cs
    | none => none

/-- Model of `BigInt('0x' + s)`: `none` models the `SyntaxError` thrown on
an empty or non-hex string. -/
def parseHexBigInt (s : List Char) : Option Nat :=
  match s with
  | [] => none
  | _ => hexRun 0 s

/-- Embeds `_toIPv6AddrInteger` (iprange.js lines 329-340), with the
source's weight constants (2^112 … 2^16). -/
def toIPv6AddrInteger (s : List Char) : Option Nat :=
  let arr := splitOnChar ':' s
  match arr[0]?.bind parseHexBigInt, arr[1]?.bind parseHexBigInt,
      arr[2]?.bind parseHexBigInt, arr[3]?.bind parseHexBigInt,
      arr[4]?.bind parseHexBigInt, arr[5]?.bind parseHexBigInt,
      arr[6]?.bind parseHexBigInt, arr[7]?.bind parseHexBigInt with
  | some h0, some h1, some h2, some h3, some h4, some h5, some h6, some h7 =>
    some (h0 * 5192296858534827628530496329220096 +
          h1 * 79228162514264337593543950336 +
          h2 * 1208925819614629174706176 +
          h3 * 18446744073709551616 +
          h4 * 281474976710656 +
          h5 * 4294967296 +
          h6 * 65536 +
          h7)
  | _, _, _, _, _, _, _, _ => none

/-- The group formatter `('000' + x.toString(16)).slice(-4)` of
`_toIPv6AddrString`: prepend three `'0'` and keep the last four characters. -/
def pad4Hex (m : Nat) : List Char :=
  let t := '0' :: '0' :: '0' :: natToChars 16 m
  t.drop (t.length - 4)

/-- Embeds `_toIPv6AddrString` (iprange.js lines 353-363), with the
source's divisor constants; `& 0xFFFFn` is `% 65536` on nonnegative values. -/
def toIPv6AddrString (n : Nat) : List Char :=
  pad4Hex (n / 5192296858534827628530496329220096 % 65536)
    ++ ':' :: pad4Hex (n / 79228162514264337593543950336 % 65536)
    ++ ':' :: pad4Hex (n / 1208925819614629174706176 % 65536)
    ++ ':' :: pad4Hex (n / 18446744073709551616 % 65536)
    ++ ':' :: pad4Hex (n / 281474976710656 % 65536)
    ++ ':' :: pad4Hex (n / 4294967296 % 65536)
    ++ ':' :: pad4Hex (n / 65536 % 65536)
    ++ ':' :: pad4Hex (n % 65536)

/-! ### The decomposer

`_makeIPv4SubnetFromRange` (iprange.js lines 387-422) and
`_makeIPv6SubnetFromRange` (lines 446-481) are textually identical up to
the address width (32 vs 128) and the numeric type, so they are embedded
once, parameterised by the width `w`.  All values are nonnegative integers
(for IPv4 they stay below 2^33 < 2^53, so JavaScript float arithmetic and
`Math.trunc` of quotients are exact), except that `intBlockEnd` can be
`-1`; since `intBlockStart ≥ 0`, the source's guard
`intBlockStart <= intBlockEnd` is equivalent to `bStart + 1 ≤ bEndP1`
where `bEndP1 = intBlockEnd + 1`, which lets the embedding live in `Nat`.
Subnets are modelled as `(base, prefixLength)` pairs; the facade layer
formats them into the strings the source pushes. -/

/-- The segment size `2^(w-i)` of loop iteration `i`: the source
initialises `intSegSize` to `2^(w-1)` and halves it at the end of each of
the `w` iterations. -/
def segSize (w i : Nat) : Nat := 2 ^ (w - i)

theorem segSize_pos (w i : Nat) : 0 < segSize w i := Nat.pos_pow_of_pos _ (by decide)

/-- The while loop of the decomposer (lines 405-412 / 464-471): push one
`(segStart, i)` subnet per aligned segment while
`segStart + segSize - 1 ≤ blockEnd`, stepping `segStart` by `segSize`;
returns the pushed subnets together with the final value of `segStart`
(which the source then assigns to `intStartAddr`).  The caller only
invokes it with `blockEnd = bEndP1 - 1 ≥ 0`. -/
def emitSegs (w i segStart blockEnd : Nat) : List (Nat × Nat) × Nat :=
  if segStart + segSize w i - 1 ≤ blockEnd then
    let r := emitSegs w i (segStart + segSize w i) blockEnd
    ((segStart, i) :: r.1, r.2)
  else ([], segStart)
termination_by blockEnd + 1 - segStart
decreasing_by
  have hseg := segSize_pos w i
  omega

theorem emitSegs_start_le (w i : Nat) :
    ∀ segStart blockEnd, segStart ≤ (emitSegs w i segStart blockEnd).2 := by
  intro s0 b0
  induction s0, b0 using emitSegs.induct w i with
  | case1 a b hc ih =>
    rw [emitSegs, if_pos hc]
    have hseg := segSize_pos w i
    simp only []
    omega
  | case2 a b hc => rw [emitSegs, if_neg hc]

theorem emitSegs_final_ge (w i a b : Nat) (h : a + segSize w i - 1 ≤ b) :
    a + segSize w i ≤ (emitSegs w i a b).2 := by
  rw [emitSegs, if_pos h]
  exact emitSegs_start_le w i _ _

/-- The source's `intBlockStart` (lines 398 / 457): round `s` up to the
next multiple of the segment size. -/
def bStart (w i s : Nat) : Nat := (s + segSize w i - 1) / segSize w i * segSize w i

/-- The source's `intBlockEnd + 1` (lines 399 / 458): round `e + 1` down
to a multiple of the segment size. -/
def bEndP1 (w i e : Nat) : Nat := (e + 1) / segSize w i * segSize w i

theorem bStart_ge (w i s : Nat) : s ≤ bStart w i s := by
  unfold bStart
  have h1 := Nat.div_add_mod' (s + segSize w i - 1) (segSize w i)
  have h2 := Nat.mod_lt (s + segSize w i - 1) (segSize_pos w i)
  have h3 := segSize_pos w i
  omega

theorem bStart_lt (w i s : Nat) : bStart w i s < s + segSize w i := by
  unfold bStart
  have h1 : (s + segSize w i - 1) / segSize w i * segSize w i ≤ s + segSize w i - 1 :=
    Nat.div_mul_le_self _ _
  have h3 := segSize_pos w i
  omega

theorem bEndP1_le (w i e : Nat) : bEndP1 w i e ≤ e + 1 := Nat.div_mul_le_self _ _

theorem bEndP1_gt (w i e : Nat) : e + 1 < bEndP1 w i e + segSize w i := by
  unfold bEndP1
  have h1 := Nat.div_add_mod' (e + 1) (segSize w i)
  have h2 := Nat.mod_lt (e + 1) (segSize_pos w i)
  omega

theorem segSize_dvd_bStart (w i s : Nat) : segSize w i ∣ bStart w i s := dvd_mul_left _ _

theorem segSize_dvd_bEndP1 (w i e : Nat) : segSize w i ∣ bEndP1 w i e := dvd_mul_left _ _

/-- When the guard `intBlockStart <= intBlockEnd` holds, the aligned
region spans at least one whole segment. -/
theorem fit_seg_le (w i s e : Nat) (h : bStart w i s + 1 ≤ bEndP1 w i e) :
    bStart w i s + segSize w i ≤ bEndP1 w i e := by
  have h1 : segSize w i ∣ bEndP1 w i e - bStart w i s :=
    Nat.dvd_sub' (segSize_dvd_bEndP1 w i e) (segSize_dvd_bStart w i s)
  have h2 : segSize w i ≤ bEndP1 w i e - bStart w i s := Nat.le_of_dvd (by omega) h1
  omega

/-- The loop body of `_makeIPv4SubnetFromRange` / `_makeIPv6SubnetFromRange`
(lines 387-422 / 446-481) with the loop variable `i` explicit: the
source's `for (let i = 1; i <= w; ++i)` over a mutable `(start, end)` pair
becomes recursion in `i`, and the source's in-place mutations
`intStartAddr = intSegStart` / `intEndAddr = intBlockEnd` become the
arguments of the `i + 1` call.  Recursive invocations of the whole
function (lines 403, 416 / 462, 475) restart at `i = 1`.  The emitted
subnets appear in push order. -/
def goSubnet (w i s e : Nat) : List (Nat × Nat) :=
  if w < i then []
  else if hfit : bStart w i s + 1 ≤ bEndP1 w i e then
    (if hlow : s < bStart w i s then goSubnet w 1 s (bStart w i s - 1) else [])
      ++ (emitSegs w i (bStart w i s) (bEndP1 w i e - 1)).1
      ++ (if hup : bEndP1 w i e - 1 < e then
            goSubnet w 1 (bEndP1 w i e) e
              ++ goSubnet w (i + 1) (emitSegs w i (bStart w i s) (bEndP1 w i e - 1)).2
                  (bEndP1 w i e - 1)
          else
            goSubnet w (i + 1) (emitSegs w i (bStart w i s) (bEndP1 w i e - 1)).2 e)
  else goSubnet w (i + 1) s e
termination_by (e + 1 - s, w + 1 - i)
decreasing_by
  · apply Prod.Lex.left
    have h2 := bEndP1_le w i e
    omega
  · apply Prod.Lex.left
    have h1 := bStart_ge w i s
    have h2 := bEndP1_le w i e
    omega
  · apply Prod.Lex.left
    have h2 := bEndP1_le w i e
    have h3 := fit_seg_le w i s e hfit
    have h4 := emitSegs_final_ge w i (bStart w i s) (bEndP1 w i e - 1)
      (by have := segSize_pos w i; omega)
    have h5 := segSize_pos w i
    have h1 := bStart_ge w i s
    omega
  · apply Prod.Lex.left
    have h2 := bEndP1_le w i e
    have h3 := fit_seg_le w i s e hfit
    have h4 := emitSegs_final_ge w i (bStart w i s) (bEndP1 w i e - 1)
      (by have := segSize_pos w i; omega)
    have h5 := segSize_pos w i
    have h1 := bStart_ge w i s
    omega
  · apply Prod.Lex.right
    omega

/-- Embeds `_makeIPv4SubnetFromRange` at the `(base, prefixLength)` level:
the source's top-level loop starting at `i = 1` with an empty output
array. -/
def makeIPv4SubnetFromRange (s e : Nat) : List (Nat × Nat) := goSubnet 32 1 s e

/-- Embeds `_makeIPv6SubnetFromRange` at the `(base, prefixLength)` level. -/
def makeIPv6SubnetFromRange (s e : Nat) : List (Nat × Nat) := goSubnet 128 1 s e

/-- The string the source pushes for one IPv4 subnet:
`_toIPv4AddrString(intSegStart) + '/' + i` (line 408). -/
def subnetStrV4 (bp : Nat × Nat) : List Char :=
  toIPv4AddrString bp.1 ++ '/' :: natToChars 10 bp.2

/-- The string the source pushes for one IPv6 subnet (line 467). -/
def subnetStrV6 (bp : Nat × Nat) : List Char :=
  toIPv6AddrString bp.1 ++ '/' :: natToChars 10 bp.2

/-- The subnet-string array produced by `_makeIPv4SubnetFromRange`. -/
def mkIPv4SubnetStrings (s e : Nat) : List (List Char) :=
  (makeIPv4SubnetFromRange s e).map subnetStrV4

/-- The subnet-string array produced by `_makeIPv6SubnetFromRange`. -/
def mkIPv6SubnetStrings (s e : Nat) : List (List Char) :=
  (makeIPv6SubnetFromRange s e).map subnetStrV6

/-! ### The range classes

`IPv4Range` objects (lines 59-146) are modelled by their three fields;
`undefined` is the outer `none`.  An IPv4 field value can be `NaN` (the
inner `none`): `_isIPv4Addr` accepts strings such as `'a.b.c.d'` whose
`parseInt` octets are `NaN`, and then `_toIPv4AddrInteger` yields `NaN`.
An IPv6 field value is always a genuine `BigInt`.  A setter is a function
`state → input → state × Bool`, the `Bool` telling whether it returned
normally (`true`) or threw `IPRangeAddressError` (`false`); the returned
state records the mutations performed before the throw.  A getter returns
`none` where the source throws `IPRangeAddressError`. -/

structure IPv4RangeState where
  intStartAddr : Option (Option Int)
  intEndAddr : Option (Option Int)
  arraySubnet : Option (List (List Char))
deriving DecidableEq

structure IPv6RangeState where
  intStartAddr : Option Nat
  intEndAddr : Option Nat
  arraySubnet : Option (List (List Char))
deriving DecidableEq

/-- The `IPRange` constructor (lines 64-68): all three fields `undefined`. -/
def initIPv4RangeState : IPv4RangeState :=
  { intStartAddr := none, intEndAddr := none, arraySubnet := none }

/-- The `IPRange` constructor for the IPv6 class. -/
def initIPv6RangeState : IPv6RangeState :=
  { intStartAddr := none, intEndAddr := none, arraySubnet := none }

/-- The split both setters perform on their input (lines 132-137 and
194-199): when the text contains `'-'` split on it, otherwise use the whole
text for both endpoints; only entries 0 and 1 are ever read (an
out-of-range `getD` models the `undefined` entry, which fails the address
check anyway). -/
def rangeParts (str : List Char) : List (List Char) :=
  if str.contains '-' then splitOnChar '-' str else [str, str]

/-- Embeds the setter `set iprange` of `IPv4Range` (lines 131-145).  When
either endpoint is `NaN` the source throws nothing: `NaN > NaN` and every
comparison against `NaN` inside `_makeIPv4SubnetFromRange` are false, so
the decomposer pushes nothing and the subnet array is set to `[]`. -/
def setIPv4Range (st : IPv4RangeState) (str : List Char) : IPv4RangeState × Bool :=
  let arr := rangeParts str
  if isIPv4Addr (arr.getD 0 []) && isIPv4Addr (arr.getD 1 []) then
    let a := toIPv4AddrInteger (arr.getD 0 [])
    let b := toIPv4AddrInteger (arr.getD 1 [])
    let st1 : IPv4RangeState := { st with intStartAddr := some a, intEndAddr := some b }
    match a, b with
    | some x, some y =>
      if x > y then (st1, false)
      else ({ st1 with arraySubnet := some (mkIPv4SubnetStrings x.toNat y.toNat) }, true)
    | _, _ => ({ st1 with arraySubnet := some [] }, true)
  else (st, false)

/-- Embeds the setter `set iprange` of `IPv6Range` (lines 193-207).  The
`| _, _` branch (a validated group failing `BigInt`) is unreachable:
`isIPv6Addr` only accepts groups of four lowercase hex digits. -/
def setIPv6Range (st : IPv6RangeState) (str : List Char) : IPv6RangeState × Bool :=
  let arr := rangeParts str
  if isIPv6Addr (arr.getD 0 []) && isIPv6Addr (arr.getD 1 []) then
    match toIPv6AddrInteger (arr.getD 0 []), toIPv6AddrInteger (arr.getD 1 []) with
    | some x, some y =>
      let st1 : IPv6RangeState := { st with intStartAddr := some x, intEndAddr := some y }
      if x > y then (st1, false)
      else ({ st1 with arraySubnet := some (mkIPv6SubnetStrings x y) }, true)
    | _, _ => (st, false)
  else (st, false)

/-- The value `_toIPv4AddrString` computes on a stored field: JavaScript
`x >>> k` coerces `NaN` to `0` and any other number to Uint32. -/
def storedIPv4String : Option Int → List Char
  | none => toIPv4AddrString 0
  | some x => toIPv4AddrString (Int.emod x 4294967296).toNat

/-- Embeds the getter `get iprange` of `IPv4Range` (lines 102-107): throws
(`none`) when either endpoint field is `undefined` (a stored `NaN` is NOT
`undefined` and passes the `==` test). -/
def getIPv4RangeText (st : IPv4RangeState) : Option (List Char) :=
  match st.intStartAddr, st.intEndAddr with
  | some a, some b => some (storedIPv4String a ++ '-' :: storedIPv4String b)
  | _, _ => none

/-- Embeds the getter `get iprange` of `IPv6Range` (lines 164-169). -/
def getIPv6RangeText (st : IPv6RangeState) : Option (List Char) :=
  match st.intStartAddr, st.intEndAddr with
  | some a, some b => some (toIPv6AddrString a ++ '-' :: toIPv6AddrString b)
  | _, _ => none

/-- Embeds the getter `get subnet` of `IPRange` (lines 78-83) for the IPv4
class: throws (`none`) iff `_arraySubnet` is `undefined`. -/
def getIPv4SubnetTexts (st : IPv4RangeState) : Option (List (List Char)) := st.arraySubnet

/-- Embeds the getter `get subnet` of `IPRange` for the IPv6 class. -/
def getIPv6SubnetTexts (st : IPv6RangeState) : Option (List (List Char)) := st.arraySubnet

/-! ### Specification-side notions

The predicates below state what the claims assert: interval membership of
a subnet, exact tiling of a closed interval, the policy on blocks, and the
address grammars, written from the claims' words rather than from the
source. -/

/-- Membership of an address `a` in the interval
`[base, base + 2^(width - prefixLength) - 1]` of a subnet `bp`. -/
def inBlock (w : Nat) (bp : Nat × Nat) (a : Nat) : Bool :=
  decide (bp.1 ≤ a ∧ a ≤ bp.1 + segSize w bp.2 - 1)

/-- `IsChain w s t L`: the subnets of `L`, in order, tile the half-open
interval `[s, t)` exactly: each block starts where the previous one ended
and the last one ends at `t`. -/
def IsChain (w : Nat) : Nat → Nat → List (Nat × Nat) → Prop
  | s, t, [] => s = t
  | s, t, bp :: r => bp.1 = s ∧ IsChain w (s + segSize w bp.2) t r

/-- The run of `k` aligned same-size blocks `(a + j·2^(w-i), i)`, `j < k`,
that the while loop pushes. -/
def segRun (w i : Nat) : Nat → Nat → List (Nat × Nat)
  | _, 0 => []
  | a, k + 1 => (a, i) :: segRun w i (a + segSize w i) k

/-- The guard `intBlockStart <= intBlockEnd` of loop iteration `i`: a
whole aligned segment of size `2^(w-i)` fits inside `[s, e]`. -/
def Fits (w i s e : Nat) : Prop := bStart w i s + 1 ≤ bEndP1 w i e

instance (w i s e : Nat) : Decidable (Fits w i s e) := by
  unfold Fits
  exact inferInstance

/-- No granularity coarser than iteration `i` admits a whole aligned
segment inside `[s, e]`. -/
def NoFitBelow (w i s e : Nat) : Prop := ∀ j, 1 ≤ j → j < i → ¬ Fits w j s e

/-- The policy on a block list: every block has a prefix length in
`[1, w]` (never `/0`) and a base aligned to its size. -/
def GoodBlocks (w : Nat) (L : List (Nat × Nat)) : Prop :=
  ∀ bp ∈ L, 1 ≤ bp.2 ∧ bp.2 ≤ w ∧ segSize w bp.2 ∣ bp.1

/-- `ExactCover w s e L`: the blocks of `L` (in any order) lie inside
`[s, e]` and cover every address of `[s, e]` exactly once. -/
def ExactCover (w s e : Nat) (L : List (Nat × Nat)) : Prop :=
  (∀ bp ∈ L, s ≤ bp.1 ∧ bp.1 + segSize w bp.2 - 1 ≤ e) ∧
  (∀ a, s ≤ a → a ≤ e → L.countP (fun bp => inBlock w bp a) = 1)

/-- Value of an all-decimal-digit group, most significant digit first. -/
def decValBE (g : List Char) : Nat := g.foldl (fun acc c => acc * 10 + decVal c) 0

/-- Value of a lowercase hex digit (`0`-`9`, `a`-`f`). -/
def lowHexVal (c : Char) : Nat :=
  if c ≤ '9' then c.toNat - '0'.toNat else c.toNat - 'a'.toNat + 10

/-- Value of an all-lowercase-hex group, most significant digit first. -/
def hexValBE (g : List Char) : Nat := g.foldl (fun acc c => acc * 16 + lowHexVal c) 0

/-- Modelled from the spec: one group of the IPv4 grammar, "a decimal
integer 0-255" (leading zeros permitted). -/
def specIPv4Octet (g : List Char) : Bool :=
  !g.isEmpty && g.all isDecDigit && decide (decValBE g ≤ 255)

/-- Modelled from the spec: the IPv4 address grammar `d.d.d.d`, exactly
four dot-separated decimal octets each in 0-255. -/
def specIPv4Grammar (s : List Char) : Bool :=
  match splitOnChar '.' s with
  | [g0, g1, g2, g3] =>
    specIPv4Octet g0 && specIPv4Octet g1 && specIPv4Octet g2 && specIPv4Octet g3
  | _ => false

/-- A minimal-decimal octet: decimal digits, no leading zero unless the
octet is exactly `"0"`, value at most 255 — the canonical IPv4 group form
of the round-trip claim. -/
def specMinDecOctet (g : List Char) : Bool :=
  !g.isEmpty && g.all isDecDigit && (!(g.head? == some '0') || g == ['0'])
    && decide (decValBE g ≤ 255)

/-- Canonical IPv4 address text: four minimal-decimal octets. -/
def specCanonIPv4 (s : List Char) : Bool :=
  match splitOnChar '.' s with
  | [g0, g1, g2, g3] =>
    specMinDecOctet g0 && specMinDecOctet g1 && specMinDecOctet g2 && specMinDecOctet g3
  | _ => false

/-- Canonical IPv6 group: exactly four lowercase hex digits. -/
def specLowHexGroup (g : List Char) : Bool := g.length == 4 && g.all isLowHexDigit

/-- Canonical IPv6 address text: eight colon-separated groups of exactly
four lowercase hex digits (zero-padded, no compression). -/
def specCanonIPv6 (s : List Char) : Bool :=
  match splitOnChar ':' s with
  | [g0, g1, g2, g3, g4, g5, g6, g7] =>
    specLowHexGroup g0 && specLowHexGroup g1 && specLowHexGroup g2 && specLowHexGroup g3
      && specLowHexGroup g4 && specLowHexGroup g5 && specLowHexGroup g6 && specLowHexGroup g7
  | _ => false

/-- An upper-or-lowercase hex digit, as the C8 claim's grammar allows. -/
def isAnyHexDigit (c : Char) : Bool := isLowHexDigit c || ('A' ≤ c && c ≤ 'F')

/-- Modelled from the spec: the C8 claim's IPv6 grammar, eight
colon-separated groups of exactly four hex digits of either case. -/
def specIPv6GrammarAnyCase (s : List Char) : Bool :=
  match splitOnChar ':' s with
  | [g0, g1, g2, g3, g4, g5, g6, g7] =>
    (g0.length == 4 && g0.all isAnyHexDigit) && (g1.length == 4 && g1.all isAnyHexDigit)
      && (g2.length == 4 && g2.all isAnyHexDigit) && (g3.length == 4 && g3.all isAnyHexDigit)
      && (g4.length == 4 && g4.all isAnyHexDigit) && (g5.length == 4 && g5.all isAnyHexDigit)
      && (g6.length == 4 && g6.all isAnyHexDigit) && (g7.length == 4 && g7.all isAnyHexDigit)
  | _ => false

/-- Inverse of `splitOnChar`: rejoin the groups with the separator. -/
def joinSep (sep : Char) : List (List Char) → List Char
  | [] => []
  | [g] => g
  | g :: g2 :: gs => g ++ sep :: joinSep sep (g2 :: gs)

/-- A sample IPv6 text of the C8 grammar whose last group uses the
uppercase hex digit `A`. -/
def upperHexSample : List Char :=
  ['0', '0', '0', '0', ':', '0', '0', '0', '0', ':', '0', '0', '0', '0', ':',
   '0', '0', '0', '0', ':', '0', '0', '0', '0', ':', '0', '0', '0', '0', ':',
   '0', '0', '0', '0', ':', '0', '0', '0', 'A']

/-- Replay of a history of IPv4 setter calls on a handle: each input is
assigned in turn (a caller that catches the thrown error can keep using
the handle, so failing calls do not stop the history). -/
def runIPv4Sets (st : IPv4RangeState) : List (List Char) → IPv4RangeState
  | [] => st
  | s :: rest => runIPv4Sets (setIPv4Range st s).1 rest

/-- Whether one input passes the IPv4 setter's address validation (this
depends only on the input, never on the handle's state). -/
def ipv4AddrOk (str : List Char) : Bool :=
  isIPv4Addr ((rangeParts str).getD 0 []) && isIPv4Addr ((rangeParts str).getD 1 [])

/-- Whether one input passes the IPv6 setter's address validation. -/
def ipv6AddrOk (str : List Char) : Bool :=
  isIPv6Addr ((rangeParts str).getD 0 []) && isIPv6Addr ((rangeParts str).getD 1 [])

/-! ### Chain lemmas -/

theorem IsChain.le {w : Nat} : ∀ {L : List (Nat × Nat)} {s t : Nat}, IsChain w s t L → s ≤ t := by
  intro L
  induction L with
  | nil => intro s t h; exact le_of_eq h
  | cons bp r ih =>
    intro s t h
    simp only [IsChain] at h
    have h1 := ih h.2
    have h2 := segSize_pos w bp.2
    omega

theorem isChain_append {w : Nat} :
    ∀ {L1 L2 : List (Nat × Nat)} {s m t : Nat},
      IsChain w s m L1 → IsChain w m t L2 → IsChain w s t (L1 ++ L2) := by
  intro L1
  induction L1 with
  | nil => intro L2 s m t h1 h2; simp only [IsChain] at h1; subst h1; simpa using h2
  | cons bp r ih =>
    intro L2 s m t h1 h2
    simp only [IsChain] at h1 ⊢
    exact ⟨h1.1, ih h1.2 h2⟩

theorem IsChain.block_bounds {w : Nat} :
    ∀ {L : List (Nat × Nat)} {s t : Nat}, IsChain w s t L →
      ∀ bp ∈ L, s ≤ bp.1 ∧ bp.1 + segSize w bp.2 ≤ t := by
  intro L
  induction L with
  | nil => intro s t _ bp hbp; simp at hbp
  | cons hd r ih =>
    intro s t h bp hbp
    simp only [IsChain] at h
    rcases List.mem_cons.mp hbp with rfl | hmem
    · exact ⟨le_of_eq h.1.symm, by have := IsChain.le h.2; omega⟩
    · have h2 := ih h.2 bp hmem
      omega

theorem IsChain.countP_zero_left {w a : Nat} {L : List (Nat × Nat)} {s t : Nat}
    (h : IsChain w s t L) (ha : a < s) : L.countP (fun bp => inBlock w bp a) = 0 := by
  apply List.countP_eq_zero.mpr
  intro bp hbp
  have h1 := h.block_bounds bp hbp
  simp only [inBlock, decide_eq_true_eq]
  omega

theorem IsChain.countP_zero_right {w a : Nat} {L : List (Nat × Nat)} {s t : Nat}
    (h : IsChain w s t L) (ha : t ≤ a) : L.countP (fun bp => inBlock w bp a) = 0 := by
  apply List.countP_eq_zero.mpr
  intro bp hbp
  have h1 := h.block_bounds bp hbp
  have h2 := segSize_pos w bp.2
  simp only [inBlock, decide_eq_true_eq]
  omega

theorem IsChain.countP_one {w : Nat} :
    ∀ {L : List (Nat × Nat)} {s t a : Nat}, IsChain w s t L → s ≤ a → a < t →
      L.countP (fun bp => inBlock w bp a) = 1 := by
  intro L
  induction L with
  | nil => intro s t a h h1 h2; simp only [IsChain] at h; omega
  | cons bp r ih =>
    intro s t a h h1 h2
    simp only [IsChain] at h
    have hsz := segSize_pos w bp.2
    rw [List.countP_cons]
    by_cases hcase : a < s + segSize w bp.2
    · have hz : r.countP (fun bp => inBlock w bp a) = 0 := IsChain.countP_zero_left h.2 hcase
      have hb : inBlock w bp a = true := by
        simp only [inBlock, decide_eq_true_eq]
        omega
      simp [hz, hb]
    · have hone : r.countP (fun bp => inBlock w bp a) = 1 := ih h.2 (by omega) h2
      have hb : ¬ inBlock w bp a = true := by
        simp only [inBlock, decide_eq_true_eq]
        omega
      simp [hone, hb]

theorem IsChain.pairwise_lt {w : Nat} :
    ∀ {L : List (Nat × Nat)} {s t : Nat}, IsChain w s t L →
      L.Pairwise (fun x y => x.1 < y.1) := by
  intro L
  induction L with
  | nil => intro s t _; simp
  | cons bp r ih =>
    intro s t h
    simp only [IsChain] at h
    have hsz := segSize_pos w bp.2
    refine List.pairwise_cons.mpr ⟨?_, ih h.2⟩
    intro b hb
    have h1 := h.2.block_bounds b hb
    omega

theorem segRun_chain (w i : Nat) : ∀ k a, IsChain w a (a + k * segSize w i) (segRun w i a k) := by
  intro k
  induction k with
  | zero => intro a; simp [segRun, IsChain]
  | succ k ih =>
    intro a
    show (a, i).1 = a ∧ IsChain w (a + segSize w (a, i).2) (a + (k + 1) * segSize w i) (segRun w i (a + segSize w i) k)
    refine ⟨rfl, ?_⟩
    have := ih (a + segSize w i)
    have harith : a + segSize w i + k * segSize w i = a + (k + 1) * segSize w i := by
      rw [Nat.succ_mul]
      omega
    rwa [harith] at this

theorem segRun_length (w i : Nat) : ∀ k a, (segRun w i a k).length = k := by
  intro k
  induction k with
  | zero => intro a; simp [segRun]
  | succ k ih => intro a; simp [segRun, ih]

theorem segRun_mem (w i : Nat) :
    ∀ k a bp, bp ∈ segRun w i a k → bp.2 = i ∧ ∃ j, j < k ∧ bp.1 = a + j * segSize w i := by
  intro k
  induction k with
  | zero => intro a bp h; simp [segRun] at h
  | succ k ih =>
    intro a bp h
    simp only [segRun, List.mem_cons] at h
    rcases h with rfl | h
    · refine ⟨rfl, 0, ?_, ?_⟩
      · omega
      · simp
    · obtain ⟨h2, j, hj, hb⟩ := ih (a + segSize w i) bp h
      refine ⟨h2, j + 1, by omega, ?_⟩
      rw [hb, Nat.succ_mul]
      omega

/-! ### Unfolding lemmas for `goSubnet` -/

theorem bStart_min {w i s m : Nat} (hs : s ≤ m) (hdvd : segSize w i ∣ m) :
    bStart w i s ≤ m := by
  obtain ⟨c, rfl⟩ := hdvd
  have hpos := segSize_pos w i
  have h1 : (s + segSize w i - 1) / segSize w i < c + 1 := by
    rw [Nat.div_lt_iff_lt_mul hpos]
    have : segSize w i * c = c * segSize w i := Nat.mul_comm _ _
    rw [Nat.succ_mul]
    omega
  have h2 : (s + segSize w i - 1) / segSize w i ≤ c := by omega
  have h3 := Nat.mul_le_mul_right (segSize w i) h2
  rw [Nat.mul_comm (segSize w i) c]
  exact h3

theorem bEndP1_max {w i e m : Nat} (he : m ≤ e + 1) (hdvd : segSize w i ∣ m) :
    m ≤ bEndP1 w i e := by
  obtain ⟨c, rfl⟩ := hdvd
  have hpos := segSize_pos w i
  have h1 : c ≤ (e + 1) / segSize w i := by
    rw [Nat.le_div_iff_mul_le hpos]
    rw [Nat.mul_comm] at he
    exact he
  have h2 := Nat.mul_le_mul_right (segSize w i) h1
  rw [Nat.mul_comm (segSize w i) c]
  exact h2

theorem segSize_at_w (w : Nat) : segSize w w = 1 := by simp [segSize]

theorem fits_at_w {w s e : Nat} (h : s ≤ e) : Fits w w s e := by
  unfold Fits bStart bEndP1
  rw [segSize_at_w]
  simpa using h

/-- The iteration guard forces a genuine segment: if `Fits w i s e` fails
for every granularity, nothing would be emitted; `goSubnet` on an empty
interval emits nothing at any `i`. -/
theorem goSubnet_of_empty (w : Nat) :
    ∀ d i s e, w + 1 ≤ i + d → e < s → goSubnet w i s e = [] := by
  intro d
  induction d with
  | zero =>
    intro i s e h1 h2
    rw [goSubnet, if_pos (by omega)]
  | succ d ih =>
    intro i s e h1 h2
    by_cases hi : w < i
    · rw [goSubnet, if_pos hi]
    · have hnofit : ¬ (bStart w i s + 1 ≤ bEndP1 w i e) := by
        have ha := bStart_ge w i s
        have hb := bEndP1_le w i e
        omega
      rw [goSubnet, if_neg hi, dif_neg hnofit]
      exact ih (i + 1) s e (by omega) h2

theorem goSubnet_empty {w i s e : Nat} (h : e < s) : goSubnet w i s e = [] :=
  goSubnet_of_empty w (w + 1) i s e (by omega) h

theorem goSubnet_halt {w i s e : Nat} (h : w < i) : goSubnet w i s e = [] := by
  rw [goSubnet, if_pos h]

theorem goSubnet_nofit {w i s e : Nat} (hi : ¬ w < i) (h : ¬ Fits w i s e) :
    goSubnet w i s e = goSubnet w (i + 1) s e := by
  have h2 : ¬ (bStart w i s + 1 ≤ bEndP1 w i e) := h
  rw [goSubnet, if_neg hi, dif_neg h2]

theorem emitSegs_spec (w i : Nat) :
    ∀ k a, 1 ≤ a + k * segSize w i →
      emitSegs w i a (a + k * segSize w i - 1) = (segRun w i a k, a + k * segSize w i) := by
  intro k
  induction k with
  | zero =>
    intro a h
    have hpos := segSize_pos w i
    rw [emitSegs, if_neg (by omega)]
    simp [segRun]
  | succ k ih =>
    intro a h
    have hpos := segSize_pos w i
    have hsm : (k + 1) * segSize w i = k * segSize w i + segSize w i := by
      rw [Nat.succ_mul]
    have hcond : a + segSize w i - 1 ≤ a + (k + 1) * segSize w i - 1 := by omega
    rw [emitSegs, if_pos hcond]
    have harg : a + (k + 1) * segSize w i - 1 = (a + segSize w i) + k * segSize w i - 1 := by
      omega
    rw [harg, ih (a + segSize w i) (by omega)]
    have harith : a + segSize w i + k * segSize w i = a + (k + 1) * segSize w i := by
      rw [Nat.succ_mul]
      omega
    rw [harith]
    rfl

/-- Unfolding of one `goSubnet` iteration whose guard holds: the lower
leftover, then the run of `(bEndP1 - bStart) / segSize` aligned blocks,
then the upper leftover; the remaining loop iterations run on an empty
interval and emit nothing. -/
theorem goSubnet_fit {w i s e : Nat} (hi : ¬ w < i) (h : Fits w i s e) :
    goSubnet w i s e =
      (if s < bStart w i s then goSubnet w 1 s (bStart w i s - 1) else [])
        ++ segRun w i (bStart w i s) ((bEndP1 w i e - bStart w i s) / segSize w i)
        ++ (if bEndP1 w i e - 1 < e then goSubnet w 1 (bEndP1 w i e) e else []) := by
  have hpos := segSize_pos w i
  have hfit : bStart w i s + 1 ≤ bEndP1 w i e := h
  have hseg : bStart w i s + segSize w i ≤ bEndP1 w i e := fit_seg_le w i s e hfit
  have hdvd : segSize w i ∣ bEndP1 w i e - bStart w i s :=
    Nat.dvd_sub' (segSize_dvd_bEndP1 w i e) (segSize_dvd_bStart w i s)
  set k := (bEndP1 w i e - bStart w i s) / segSize w i with hk
  have hkmul : k * segSize w i = bEndP1 w i e - bStart w i s := by
    rw [hk, Nat.div_mul_cancel hdvd]
  have hbep1 : bEndP1 w i e = bStart w i s + k * segSize w i := by omega
  have hspec := emitSegs_spec w i k (bStart w i s) (by omega)
  rw [goSubnet, if_neg hi, dif_pos hfit]
  rw [show bEndP1 w i e - 1 = bStart w i s + k * segSize w i - 1 by omega]
  rw [hspec]
  simp only
  by_cases hup : bStart w i s + k * segSize w i - 1 < e
  · rw [dif_pos hup, if_pos hup]
    rw [goSubnet_empty
      (show bStart w i s + k * segSize w i - 1 < bStart w i s + k * segSize w i by omega)]
    simp [dite_eq_ite]
  · rw [dif_neg hup, if_neg hup]
    rw [goSubnet_empty (show e < bStart w i s + k * segSize w i by omega)]
    simp [dite_eq_ite]

/-! ### Main correctness of the decomposer: exact tiling with the policy -/

theorem goodBlocks_nil {w : Nat} : GoodBlocks w [] := by
  intro bp h
  simp at h

theorem goodBlocks_append {w : Nat} {A B : List (Nat × Nat)}
    (ha : GoodBlocks w A) (hb : GoodBlocks w B) : GoodBlocks w (A ++ B) := by
  intro bp hbp
  rcases List.mem_append.mp hbp with h | h
  · exact ha bp h
  · exact hb bp h

theorem segRun_good (w i a k : Nat) (h1 : 1 ≤ i) (h2 : i ≤ w)
    (hdvd : segSize w i ∣ a) : GoodBlocks w (segRun w i a k) := by
  intro bp hbp
  obtain ⟨hp, j, hj, hb⟩ := segRun_mem w i k a bp hbp
  rw [hp, hb]
  exact ⟨h1, h2, dvd_add hdvd (dvd_mul_left _ _)⟩

theorem goSubnet_chain_policy (w : Nat) :
    ∀ i s e, 1 ≤ i → i ≤ w → s ≤ e →
      IsChain w s (e + 1) (goSubnet w i s e) ∧ GoodBlocks w (goSubnet w i s e) := by
  intro i0 s0 e0
  induction i0, s0, e0 using goSubnet.induct w with
  | case1 i s e hw => intro h1 h2 h3; omega
  | case2 i s e hw hfit ihlow ihup ihfin1 ihfin2 =>
    intro h1 h2 h3
    have hpos := segSize_pos w i
    have hseg : bStart w i s + segSize w i ≤ bEndP1 w i e := fit_seg_le w i s e hfit
    have hbs := bStart_ge w i s
    have hble := bEndP1_le w i e
    have hdvd : segSize w i ∣ bEndP1 w i e - bStart w i s :=
      Nat.dvd_sub' (segSize_dvd_bEndP1 w i e) (segSize_dvd_bStart w i s)
    have hkmul : (bEndP1 w i e - bStart w i s) / segSize w i * segSize w i
        = bEndP1 w i e - bStart w i s := Nat.div_mul_cancel hdvd
    rw [goSubnet_fit hw hfit]
    have hrun : IsChain w (bStart w i s) (bEndP1 w i e)
        (segRun w i (bStart w i s) ((bEndP1 w i e - bStart w i s) / segSize w i)) := by
      have := segRun_chain w i ((bEndP1 w i e - bStart w i s) / segSize w i) (bStart w i s)
      rwa [show bStart w i s + (bEndP1 w i e - bStart w i s) / segSize w i * segSize w i
        = bEndP1 w i e by omega] at this
    have hrungood : GoodBlocks w
        (segRun w i (bStart w i s) ((bEndP1 w i e - bStart w i s) / segSize w i)) :=
      segRun_good w i (bStart w i s) _ h1 h2 (segSize_dvd_bStart w i s)
    have hlower : IsChain w s (bStart w i s)
          (if s < bStart w i s then goSubnet w 1 s (bStart w i s - 1) else [])
        ∧ GoodBlocks w (if s < bStart w i s then goSubnet w 1 s (bStart w i s - 1) else []) := by
      by_cases hlow : s < bStart w i s
      · have hih := ihlow hlow (by omega) (by omega) (by omega)
        rw [if_pos hlow]
        refine ⟨?_, hih.2⟩
        have := hih.1
        rwa [show bStart w i s - 1 + 1 = bStart w i s by omega] at this
      · rw [if_neg hlow]
        exact ⟨by simp only [IsChain]; omega, goodBlocks_nil⟩
    have hupper : IsChain w (bEndP1 w i e) (e + 1)
          (if bEndP1 w i e - 1 < e then goSubnet w 1 (bEndP1 w i e) e else [])
        ∧ GoodBlocks w (if bEndP1 w i e - 1 < e then goSubnet w 1 (bEndP1 w i e) e else []) := by
      by_cases hup : bEndP1 w i e - 1 < e
      · have hih := ihup (by omega) (by omega) (by omega)
        rw [if_pos hup]
        exact ⟨hih.1, hih.2⟩
      · rw [if_neg hup]
        exact ⟨by simp only [IsChain]; omega, goodBlocks_nil⟩
    constructor
    · exact isChain_append (isChain_append hlower.1 hrun) hupper.1
    · exact goodBlocks_append (goodBlocks_append hlower.2 hrungood) hupper.2
  | case3 i s e hw hnofit ih =>
    intro h1 h2 h3
    have hiw : i < w := by
      rcases Nat.lt_or_ge i w with h | h
      · exact h
      · exfalso
        have hieq : i = w := by omega
        subst hieq
        exact hnofit (fits_at_w h3)
    rw [goSubnet_nofit hw (fun hf => hnofit hf)]
    exact ih (by omega) (by omega) h3

/-! ### Minimality of the decomposition -/

theorem fits_of_block {w p s e b : Nat} (hdvd : segSize w p ∣ b)
    (hin1 : s ≤ b) (hin2 : b + segSize w p ≤ e + 1) : Fits w p s e := by
  have hbs : bStart w p s ≤ b := bStart_min hin1 hdvd
  have hbe : b + segSize w p ≤ bEndP1 w p e := bEndP1_max hin2 (dvd_add hdvd dvd_rfl)
  have := segSize_pos w p
  unfold Fits
  omega

/-- If no granularity below `i` fits inside `[s, e]`, every policy block
inside `[s, e]` has prefix length at least `i` (size at most `2^(w-i)`). -/
theorem block_pfx_ge {w i s e b p : Nat} (hnfb : NoFitBelow w i s e) (h1 : 1 ≤ p)
    (hdvd : segSize w p ∣ b) (hin1 : s ≤ b) (hin2 : b + segSize w p ≤ e + 1) :
    i ≤ p := by
  by_contra hlt
  exact hnfb p h1 (by omega) (fits_of_block hdvd hin1 hin2)

theorem segSize_dvd_of_le (w : Nat) {i p : Nat} (h : i ≤ p) :
    segSize w p ∣ segSize w i :=
  pow_dvd_pow 2 (by omega)

theorem segSize_le_of_le (w : Nat) {i p : Nat} (h : i ≤ p) :
    segSize w p ≤ segSize w i :=
  Nat.pow_le_pow_right (by decide) (by omega)

/-- A block of size at most `2^(w-i)`, aligned to its own size, cannot
contain a multiple of `2^(w-i)` strictly inside itself. -/
theorem no_straddle {w i p b m : Nat} (hip : i ≤ p) (hdvdb : segSize w p ∣ b)
    (hdvdm : segSize w i ∣ m) : ¬ (b < m ∧ m < b + segSize w p) := by
  rintro ⟨h1, h2⟩
  have hd : segSize w p ∣ m := dvd_trans (segSize_dvd_of_le w hip) hdvdm
  have hd2 : segSize w p ∣ m - b := Nat.dvd_sub' hd hdvdb
  have := Nat.le_of_dvd (by omega) hd2
  omega

/-- A chain none of whose blocks straddles `m` splits exactly at `m`. -/
theorem chain_split {w : Nat} :
    ∀ {C : List (Nat × Nat)} {s t m : Nat}, IsChain w s t C → s ≤ m → m ≤ t →
      (∀ bp ∈ C, ¬ (bp.1 < m ∧ m < bp.1 + segSize w bp.2)) →
      ∃ C1 C2, C = C1 ++ C2 ∧ IsChain w s m C1 ∧ IsChain w m t C2 := by
  intro C
  induction C with
  | nil =>
    intro s t m h h1 h2 _
    simp only [IsChain] at h
    refine ⟨[], [], by simp, ?_, ?_⟩
    · simp only [IsChain]
      omega
    · simp only [IsChain]
      omega
  | cons bp r ih =>
    intro s t m h h1 h2 hns
    simp only [IsChain] at h
    rcases Nat.eq_or_lt_of_le h1 with heq | hlt
    · subst heq
      exact ⟨[], bp :: r, by simp, rfl, ⟨h.1, h.2⟩⟩
    · have hbp := hns bp (List.mem_cons_self _ _)
      rw [h.1] at hbp
      have hm : s + segSize w bp.2 ≤ m := by omega
      obtain ⟨C1, C2, hsplit, hc1, hc2⟩ :=
        ih h.2 hm h2 (fun b hb => hns b (List.mem_cons_of_mem bp hb))
      refine ⟨bp :: C1, C2, by rw [hsplit]; rfl, ⟨h.1, hc1⟩, hc2⟩

/-- A chain of blocks of size at most `K` spanning `[s, t)` has at least
`(t - s) / K` blocks. -/
theorem chain_szbound {w K : Nat} :
    ∀ {C : List (Nat × Nat)} {s t : Nat}, IsChain w s t C →
      (∀ bp ∈ C, segSize w bp.2 ≤ K) → t ≤ s + C.length * K := by
  intro C
  induction C with
  | nil =>
    intro s t h _
    simp only [IsChain] at h
    omega
  | cons bp r ih =>
    intro s t h hK
    simp only [IsChain] at h
    have h1 := ih h.2 (fun b hb => hK b (List.mem_cons_of_mem bp hb))
    have h2 := hK bp (List.mem_cons_self _ _)
    simp only [List.length_cons]
    rw [Nat.succ_mul]
    omega

theorem goSubnet_min (w : Nat) :
    ∀ i s e, 1 ≤ i → i ≤ w → s ≤ e → NoFitBelow w i s e →
      ∀ C, IsChain w s (e + 1) C → GoodBlocks w C →
        (goSubnet w i s e).length ≤ C.length := by
  intro i0 s0 e0
  induction i0, s0, e0 using goSubnet.induct w with
  | case1 i s e hw => intro h1 h2; omega
  | case2 i s e hw hfit ihlow ihup ihfin1 ihfin2 =>
    intro h1 h2 h3 hnfb C hC hCgood
    have hpos := segSize_pos w i
    have hseg : bStart w i s + segSize w i ≤ bEndP1 w i e := fit_seg_le w i s e hfit
    have hbs := bStart_ge w i s
    have hble := bEndP1_le w i e
    have hdvd : segSize w i ∣ bEndP1 w i e - bStart w i s :=
      Nat.dvd_sub' (segSize_dvd_bEndP1 w i e) (segSize_dvd_bStart w i s)
    have hkmul : (bEndP1 w i e - bStart w i s) / segSize w i * segSize w i
        = bEndP1 w i e - bStart w i s := Nat.div_mul_cancel hdvd
    -- every block of C has prefix length at least i, hence size at most segSize w i
    have hCge : ∀ bp ∈ C, i ≤ bp.2 := by
      intro bp hbp
      obtain ⟨hb1, hb2⟩ := hC.block_bounds bp hbp
      obtain ⟨hg1, hg2, hg3⟩ := hCgood bp hbp
      exact block_pfx_ge hnfb hg1 hg3 hb1 hb2
    have hnstr : ∀ m, segSize w i ∣ m →
        ∀ bp ∈ C, ¬ (bp.1 < m ∧ m < bp.1 + segSize w bp.2) := by
      intro m hm bp hbp
      exact no_straddle (hCge bp hbp) (hCgood bp hbp).2.2 hm
    -- split C at bStart and at bEndP1
    obtain ⟨CL, CRest, hCeq, hCL, hCRest⟩ :=
      chain_split hC hbs (by omega) (hnstr (bStart w i s) (segSize_dvd_bStart w i s))
    obtain ⟨CM, CR, hCReq, hCM, hCR⟩ :=
      chain_split hCRest (by omega) (by omega)
        (fun bp hbp => hnstr (bEndP1 w i e) (segSize_dvd_bEndP1 w i e) bp
          (by rw [hCeq]; exact List.mem_append_right CL hbp))
    rw [goSubnet_fit hw hfit]
    have hlenC : C.length = CL.length + CM.length + CR.length := by
      rw [hCeq, hCReq]
      simp [List.length_append]
      omega
    -- the middle part has at least k blocks
    have hCMk : (bEndP1 w i e - bStart w i s) / segSize w i ≤ CM.length := by
      have hsz : ∀ bp ∈ CM, segSize w bp.2 ≤ segSize w i := by
        intro bp hbp
        have hmem : bp ∈ C := by
          rw [hCeq, hCReq]
          exact List.mem_append_right CL (List.mem_append_left CR hbp)
        exact segSize_le_of_le w (hCge bp hmem)
      have hbound := chain_szbound hCM hsz
      have : (bEndP1 w i e - bStart w i s) / segSize w i * segSize w i
          ≤ CM.length * segSize w i := by omega
      exact Nat.le_of_mul_le_mul_right this hpos
    -- lower part
    have hlowlen : (if s < bStart w i s then goSubnet w 1 s (bStart w i s - 1) else []).length
        ≤ CL.length := by
      by_cases hlow : s < bStart w i s
      · rw [if_pos hlow]
        refine ihlow hlow (by omega) (by omega) (by omega) (fun j hj1 hj2 => by omega) CL ?_
          (fun bp hbp => hCgood bp (by rw [hCeq]; exact List.mem_append_left CRest hbp))
        have := hCL
        rwa [show bStart w i s = bStart w i s - 1 + 1 by omega] at this
      · rw [if_neg hlow]
        simp
    -- upper part
    have huplen : (if bEndP1 w i e - 1 < e then goSubnet w 1 (bEndP1 w i e) e else []).length
        ≤ CR.length := by
      by_cases hup : bEndP1 w i e - 1 < e
      · rw [if_pos hup]
        exact ihup (by omega) (by omega) (by omega) (fun j hj1 hj2 => by omega) CR hCR
          (fun bp hbp => hCgood bp
            (by rw [hCeq, hCReq]; exact List.mem_append_right CL (List.mem_append_right CM hbp)))
      · rw [if_neg hup]
        simp
    simp only [List.length_append, segRun_length]
    omega
  | case3 i s e hw hnofit ih =>
    intro h1 h2 h3 hnfb C hC hCgood
    have hiw : i < w := by
      rcases Nat.lt_or_ge i w with h | h
      · exact h
      · exfalso
        have hieq : i = w := by omega
        subst hieq
        exact hnofit (fits_at_w h3)
    rw [goSubnet_nofit hw (fun hf => hnofit hf)]
    refine ih (by omega) (by omega) h3 ?_ C hC hCgood
    intro j hj1 hj2
    rcases Nat.lt_or_ge j i with hji | hji
    · exact hnfb j hj1 hji
    · have : j = i := by omega
      subst this
      exact fun hf => hnofit hf

/-- Any exact cover of `[s, e]` (blocks in any order) can be reordered
into a chain: repeatedly extract the unique block based at the left end. -/
theorem cover_to_chain (w e : Nat) :
    ∀ n L s, L.length ≤ n → s ≤ e + 1 → ExactCover w s e L →
      ∃ C, C.Perm L ∧ IsChain w s (e + 1) C := by
  intro n
  induction n with
  | zero =>
    intro L s hlen hse hcov
    have hL : L = [] := List.eq_nil_of_length_eq_zero (by omega)
    subst hL
    rcases Nat.eq_or_lt_of_le hse with heq | hlt
    · exact ⟨[], List.Perm.refl _, heq⟩
    · exfalso
      have := hcov.2 s le_rfl (by omega)
      simp at this
  | succ n ih =>
    intro L s hlen hse hcov
    rcases Nat.eq_or_lt_of_le hse with heq | hlt
    · have hL : L = [] := by
        cases L with
        | nil => rfl
        | cons bp r =>
          exfalso
          have h := hcov.1 bp (List.mem_cons_self _ _)
          have := segSize_pos w bp.2
          omega
      subst hL
      exact ⟨[], List.Perm.refl _, heq⟩
    · have hcnt := hcov.2 s le_rfl (by omega)
      have hpos : 0 < L.countP (fun bp => inBlock w bp s) := by omega
      obtain ⟨bp, hbp, hin⟩ := List.countP_pos_iff.mp hpos
      simp only [inBlock, decide_eq_true_eq] at hin
      have hbase : bp.1 = s := by
        have h1 := hcov.1 bp hbp
        omega
      have hsz := segSize_pos w bp.2
      have hszle : s + segSize w bp.2 ≤ e + 1 := by
        have h1 := hcov.1 bp hbp
        omega
      obtain ⟨l1, l2, hLeq⟩ := List.append_of_mem hbp
      subst hLeq
      set R := l1 ++ l2 with hR
      have hperm : (l1 ++ bp :: l2).Perm (bp :: R) := List.perm_middle
      have hmemR : ∀ x, x ∈ R → x ∈ l1 ++ bp :: l2 := by
        intro x hx
        exact hperm.symm.subset (List.mem_cons_of_mem bp hx)
      have hcov' : ExactCover w (s + segSize w bp.2) e R := by
        constructor
        · intro b hb
          have hbL : b ∈ l1 ++ bp :: l2 := hmemR b hb
          have h1 := hcov.1 b hbL
          have hbsz := segSize_pos w b.2
          refine ⟨?_, h1.2⟩
          by_contra hlt2
          have hbin : inBlock w b b.1 = true := by
            simp only [inBlock, decide_eq_true_eq]
            omega
          have hbpin : inBlock w bp b.1 = true := by
            simp only [inBlock, decide_eq_true_eq]
            omega
          have hble : b.1 ≤ e := by omega
          have hcnt2 := hcov.2 b.1 h1.1 hble
          have hb2 : (fun x => inBlock w x b.1) bp = true := hbpin
          have hpe := hperm.countP_eq (fun x => inBlock w x b.1)
          rw [List.countP_cons_of_pos (fun x => inBlock w x b.1) R hb2] at hpe
          have hposb : 0 < R.countP (fun x => inBlock w x b.1) :=
            List.countP_pos_iff.mpr ⟨b, hb, hbin⟩
          omega
        · intro a ha1 ha2
          have hcnta := hcov.2 a (by omega) ha2
          have hnot : (inBlock w bp a : Bool) = false := by
            simp only [inBlock, decide_eq_false_iff_not, hbase]
            omega
          have hn2 : ¬ (fun x => inBlock w x a) bp = true := by simp [hnot]
          have hpe := hperm.countP_eq (fun x => inBlock w x a)
          rw [List.countP_cons_of_neg (fun x => inBlock w x a) R hn2] at hpe
          omega
      have hlen' : R.length ≤ n := by
        have : (l1 ++ bp :: l2).length = R.length + 1 := by
          simp [hR]
          omega
        omega
      obtain ⟨C', hperm', hchain'⟩ := ih R (s + segSize w bp.2) hlen' (by omega) hcov'
      refine ⟨bp :: C', (hperm'.cons bp).trans hperm.symm, ?_⟩
      exact ⟨hbase, hchain'⟩

/-- At granularity `w` (segment size 1) the interval `[a, a]` is emitted
as the single block `(a, w)`. -/
theorem goSubnet_single_at_w (w a : Nat) (_h : 1 ≤ w) : goSubnet w w a a = [(a, w)] := by
  have hbs : bStart w w a = a := by
    unfold bStart
    rw [segSize_at_w]
    simp
  have hbe : bEndP1 w w a = a + 1 := by
    unfold bEndP1
    rw [segSize_at_w]
    simp
  rw [goSubnet_fit (by omega) (show Fits w w a a by unfold Fits; omega)]
  rw [hbs, hbe]
  simp [segSize_at_w, segRun]

/-- The decomposition of a single address: below granularity `w` no whole
segment fits in `[a, a]`, so every iteration before `w` is a no-op. -/
theorem goSubnet_single (w : Nat) :
    ∀ d i a, 1 ≤ i → i ≤ w → w ≤ i + d → goSubnet w i a a = [(a, w)] := by
  intro d
  induction d with
  | zero =>
    intro i a h1 h2 h3
    have hieq : w = i := by omega
    subst hieq
    exact goSubnet_single_at_w w a h1
  | succ d ih =>
    intro i a h1 h2 h3
    by_cases hieq : i = w
    · subst hieq
      exact goSubnet_single_at_w i a h1
    · have hnofit : ¬ Fits w i a a := by
        intro hf
        have hseg := fit_seg_le w i a a hf
        have hbs := bStart_ge w i a
        have hble := bEndP1_le w i a
        have h2le : 2 ≤ segSize w i := by
          unfold segSize
          have hh : 2 ^ 1 ≤ 2 ^ (w - i) := Nat.pow_le_pow_right (by decide) (by omega)
          simpa using hh
        omega
      rw [goSubnet_nofit (by omega) hnofit]
      exact ih (i + 1) a (by omega) (by omega) (by omega)

theorem makeSubnet_single (w a : Nat) (h : 1 ≤ w) : goSubnet w 1 a a = [(a, w)] :=
  goSubnet_single w (w - 1) 1 a le_rfl h (by omega)

/-- The decomposition of the full address space: the guard already holds
at `i = 1`, emitting the two half-space `/1` blocks. -/
theorem makeSubnet_full (w : Nat) (h : 1 ≤ w) :
    goSubnet w 1 0 (2 ^ w - 1) = [(0, 1), (2 ^ (w - 1), 1)] := by
  have hpos := segSize_pos w 1
  have hpw : 0 < 2 ^ w := Nat.pos_pow_of_pos _ (by decide)
  have hseg : segSize w 1 = 2 ^ (w - 1) := rfl
  have h2w : 2 ^ w = 2 * 2 ^ (w - 1) := by
    conv_lhs => rw [show w = (w - 1) + 1 by omega]
    rw [Nat.pow_succ]
    ring
  have hbs : bStart w 1 0 = 0 := by
    unfold bStart
    rw [Nat.zero_add, Nat.div_eq_of_lt (by omega), Nat.zero_mul]
  have hbe : bEndP1 w 1 (2 ^ w - 1) = 2 ^ w := by
    unfold bEndP1
    have e1 : 2 ^ w - 1 + 1 = 2 ^ w := by omega
    rw [e1, hseg, h2w, Nat.mul_div_cancel _ (by omega)]
  rw [goSubnet_fit (by omega) (show Fits w 1 0 (2 ^ w - 1) by unfold Fits; omega)]
  rw [hbs, hbe]
  have hk : (2 ^ w - 0) / segSize w 1 = 2 := by
    rw [Nat.sub_zero, hseg, h2w, Nat.mul_div_cancel _ (by omega)]
  rw [hk]
  rw [if_neg (by omega), if_neg (by omega)]
  simp [segRun, hseg]

/-! ### Claim theorems for the decomposer -/

theorem makeSubnet_partition (w s e : Nat) (hw : 1 ≤ w) (hse : s ≤ e) :
    (∀ a, s ≤ a → a ≤ e → (goSubnet w 1 s e).countP (fun bp => inBlock w bp a) = 1) ∧
    (∀ bp ∈ goSubnet w 1 s e, s ≤ bp.1 ∧ bp.1 + segSize w bp.2 - 1 ≤ e) := by
  have h := goSubnet_chain_policy w 1 s e le_rfl hw hse
  constructor
  · intro a ha1 ha2
    exact h.1.countP_one ha1 (by omega)
  · intro bp hbp
    have hb := h.1.block_bounds bp hbp
    have := segSize_pos w bp.2
    exact ⟨hb.1, by omega⟩

theorem makeSubnet_minimal (w s e : Nat) (hw : 1 ≤ w) (hse : s ≤ e) :
    ∀ L, ExactCover w s e L → GoodBlocks w L →
      (goSubnet w 1 s e).length ≤ L.length := by
  intro L hcov hgood
  obtain ⟨C, hperm, hchain⟩ := cover_to_chain w e L.length L s le_rfl (by omega) hcov
  have hCgood : GoodBlocks w C := fun bp hbp => hgood bp (hperm.subset hbp)
  have hmin := goSubnet_min w 1 s e le_rfl hw hse (fun j hj1 hj2 => by omega) C hchain hCgood
  rwa [hperm.length_eq] at hmin

/-- C1: for width 32 and 128 and any `0 ≤ start ≤ end < 2^width`, the
emitted subnet list is an exact partition of `[start, end]`: every address
of the range lies in exactly one emitted subnet's interval, and every
emitted subnet's interval is contained in `[start, end]`. -/
theorem claim_C1_partition :
    (∀ s e : Nat, s ≤ e → e < 2 ^ 32 →
      (∀ a, s ≤ a → a ≤ e →
        (makeIPv4SubnetFromRange s e).countP (fun bp => inBlock 32 bp a) = 1) ∧
      (∀ bp ∈ makeIPv4SubnetFromRange s e, s ≤ bp.1 ∧ bp.1 + 2 ^ (32 - bp.2) - 1 ≤ e)) ∧
    (∀ s e : Nat, s ≤ e → e < 2 ^ 128 →
      (∀ a, s ≤ a → a ≤ e →
        (makeIPv6SubnetFromRange s e).countP (fun bp => inBlock 128 bp a) = 1) ∧
      (∀ bp ∈ makeIPv6SubnetFromRange s e, s ≤ bp.1 ∧ bp.1 + 2 ^ (128 - bp.2) - 1 ≤ e)) := by
  constructor
  · intro s e hse _
    exact makeSubnet_partition 32 s e (by omega) hse
  · intro s e hse _
    exact makeSubnet_partition 128 s e (by omega) hse

theorem claim_C1_partition_witness :
    (3 : Nat) ≤ 5 ∧ (5 : Nat) < 2 ^ 32 ∧
      (makeIPv4SubnetFromRange 3 5).countP (fun bp => inBlock 32 bp 4) = 1 :=
  ⟨by decide, by norm_num,
    (claim_C1_partition.1 3 5 (by decide) (by norm_num)).1 4 (by decide) (by decide)⟩

/-- C6: every emitted subnet has its base divisible by its block size
`2^(width - prefixLength)`, its prefix length in `[1, width]`, and the
emitted list is strictly ascending by base address. -/
theorem claim_C6_invariants :
    (∀ s e : Nat, s ≤ e → e < 2 ^ 32 →
      (∀ bp ∈ makeIPv4SubnetFromRange s e,
        2 ^ (32 - bp.2) ∣ bp.1 ∧ 1 ≤ bp.2 ∧ bp.2 ≤ 32) ∧
      (makeIPv4SubnetFromRange s e).Pairwise (fun x y => x.1 < y.1)) ∧
    (∀ s e : Nat, s ≤ e → e < 2 ^ 128 →
      (∀ bp ∈ makeIPv6SubnetFromRange s e,
        2 ^ (128 - bp.2) ∣ bp.1 ∧ 1 ≤ bp.2 ∧ bp.2 ≤ 128) ∧
      (makeIPv6SubnetFromRange s e).Pairwise (fun x y => x.1 < y.1)) := by
  constructor
  · intro s e hse _
    have h := goSubnet_chain_policy 32 1 s e le_rfl (by omega) hse
    refine ⟨?_, h.1.pairwise_lt⟩
    intro bp hbp
    obtain ⟨h1, h2, h3⟩ := h.2 bp hbp
    exact ⟨h3, h1, h2⟩
  · intro s e hse _
    have h := goSubnet_chain_policy 128 1 s e le_rfl (by omega) hse
    refine ⟨?_, h.1.pairwise_lt⟩
    intro bp hbp
    obtain ⟨h1, h2, h3⟩ := h.2 bp hbp
    exact ⟨h3, h1, h2⟩

theorem claim_C6_invariants_witness :
    (3 : Nat) ≤ 5 ∧ (5 : Nat) < 2 ^ 32 ∧
      (makeIPv4SubnetFromRange 3 5).Pairwise (fun x y => x.1 < y.1) :=
  ⟨by decide, by norm_num, (claim_C6_invariants.1 3 5 (by decide) (by norm_num)).2⟩

/-- C4: the emitted list is a minimum-cardinality exact cover of
`[start, end]` among all block lists obeying the documented policy
(aligned CIDR blocks, prefix length in `[1, width]`); moreover `/0` is
never emitted, the full space decomposes into exactly the two `/1`
half-space blocks, and a single address yields exactly one `/width`
block. -/
theorem claim_C4_minimality :
    ((∀ s e : Nat, s ≤ e → e < 2 ^ 32 →
      (∀ L, ExactCover 32 s e L → GoodBlocks 32 L →
        (makeIPv4SubnetFromRange s e).length ≤ L.length) ∧
      (∀ bp ∈ makeIPv4SubnetFromRange s e, bp.2 ≠ 0)) ∧
     makeIPv4SubnetFromRange 0 (2 ^ 32 - 1) = [(0, 1), (2 ^ 31, 1)] ∧
     (∀ a : Nat, a < 2 ^ 32 → makeIPv4SubnetFromRange a a = [(a, 32)])) ∧
    ((∀ s e : Nat, s ≤ e → e < 2 ^ 128 →
      (∀ L, ExactCover 128 s e L → GoodBlocks 128 L →
        (makeIPv6SubnetFromRange s e).length ≤ L.length) ∧
      (∀ bp ∈ makeIPv6SubnetFromRange s e, bp.2 ≠ 0)) ∧
     makeIPv6SubnetFromRange 0 (2 ^ 128 - 1) = [(0, 1), (2 ^ 127, 1)] ∧
     (∀ a : Nat, a < 2 ^ 128 → makeIPv6SubnetFromRange a a = [(a, 128)])) := by
  constructor
  · refine ⟨?_, ?_, ?_⟩
    · intro s e hse _
      refine ⟨makeSubnet_minimal 32 s e (by omega) hse, ?_⟩
      intro bp hbp
      have h := (goSubnet_chain_policy 32 1 s e le_rfl (by omega) hse).2 bp hbp
      omega
    · exact makeSubnet_full 32 (by omega)
    · intro a _
      exact makeSubnet_single 32 a (by omega)
  · refine ⟨?_, ?_, ?_⟩
    · intro s e hse _
      refine ⟨makeSubnet_minimal 128 s e (by omega) hse, ?_⟩
      intro bp hbp
      have h := (goSubnet_chain_policy 128 1 s e le_rfl (by omega) hse).2 bp hbp
      omega
    · exact makeSubnet_full 128 (by omega)
    · intro a _
      exact makeSubnet_single 128 a (by omega)

theorem claim_C4_minimality_witness :
    (7 : Nat) < 2 ^ 32 ∧ makeIPv4SubnetFromRange 7 7 = [(7, 32)] :=
  ⟨by norm_num, (claim_C4_minimality.1.2.2 7 (by norm_num))⟩

/-- C9: the top-level loop stops after exactly `width` iterations (any
iteration index beyond `width` emits nothing, and an iteration whose
guard fails only moves on to the next index), and each recursive call in
a fitting iteration is on a strictly smaller closed subinterval of the
caller's interval `[s, e]`.  Totality itself is witnessed by `goSubnet`
being accepted as a terminating definition. -/
theorem claim_C9_termination :
    ∀ w : Nat, w = 32 ∨ w = 128 →
      (∀ i s e : Nat, w < i → goSubnet w i s e = []) ∧
      (∀ i s e : Nat, 1 ≤ i → i ≤ w → ¬ Fits w i s e →
        goSubnet w i s e = goSubnet w (i + 1) s e) ∧
      (∀ i s e : Nat, 1 ≤ i → i ≤ w → s ≤ e → Fits w i s e →
        (s < bStart w i s →
          s ≤ bStart w i s - 1 ∧ bStart w i s - 1 ≤ e ∧ bStart w i s - 1 - s < e - s) ∧
        (bEndP1 w i e - 1 < e →
          s < bEndP1 w i e ∧ e - bEndP1 w i e < e - s)) := by
  intro w _
  refine ⟨?_, ?_, ?_⟩
  · intro i s e h
    exact goSubnet_halt h
  · intro i s e h1 h2 h3
    exact goSubnet_nofit (by omega) h3
  · intro i s e h1 h2 h3 hfit
    have hpos := segSize_pos w i
    have hseg := fit_seg_le w i s e hfit
    have hbs := bStart_ge w i s
    have hble := bEndP1_le w i e
    constructor
    · intro hlow
      omega
    · intro hup
      omega

theorem claim_C9_termination_witness :
    goSubnet 32 33 0 5 = [] :=
  (claim_C9_termination 32 (Or.inl rfl)).1 33 0 5 (by decide)

/-! ### Digit-level lemmas for the codec round trips -/

theorem decDigit_toNat {c : Char} (h : isDecDigit c = true) :
    48 ≤ c.toNat ∧ c.toNat ≤ 57 := by
  simp only [isDecDigit, Bool.and_eq_true, decide_eq_true_eq] at h
  exact ⟨h.1, h.2⟩

theorem lowHex_toNat {c : Char} (h : isLowHexDigit c = true) :
    (48 ≤ c.toNat ∧ c.toNat ≤ 57) ∨ (97 ≤ c.toNat ∧ c.toNat ≤ 102) := by
  simp only [isLowHexDigit, Bool.or_eq_true, Bool.and_eq_true, decide_eq_true_eq] at h
  rcases h with h | h
  · exact Or.inl ⟨h.1, h.2⟩
  · exact Or.inr ⟨h.1, h.2⟩

theorem digit_inverse {c : Char} (h : isDecDigit c = true) : digitChar (decVal c) = c := by
  obtain ⟨h1, h2⟩ := decDigit_toNat h
  have h48 : '0'.toNat = 48 := rfl
  unfold digitChar decVal
  rw [if_pos (by omega), show '0'.toNat + (c.toNat - '0'.toNat) = c.toNat by omega]
  exact Char.ofNat_toNat c

theorem lowhex_inverse {c : Char} (h : isLowHexDigit c = true) :
    digitChar (lowHexVal c) = c := by
  have h48 : '0'.toNat = 48 := rfl
  have h97 : 'a'.toNat = 97 := rfl
  have h57 : '9'.toNat = 57 := rfl
  rcases lowHex_toNat h with ⟨h1, h2⟩ | ⟨h1, h2⟩
  · have hle : c ≤ '9' := show c.toNat ≤ '9'.toNat by omega
    unfold digitChar lowHexVal
    rw [if_pos hle, if_pos (by omega), show '0'.toNat + (c.toNat - '0'.toNat) = c.toNat by omega]
    exact Char.ofNat_toNat c
  · have hle : ¬ c ≤ '9' := by
      intro hc
      have : c.toNat ≤ 57 := hc
      omega
    unfold digitChar lowHexVal
    rw [if_neg hle, if_neg (by omega),
      show 'a'.toNat + (c.toNat - 'a'.toNat + 10 - 10) = c.toNat by omega]
    exact Char.ofNat_toNat c

theorem digitChar_dec {d : Nat} (h : d < 10) :
    isDecDigit (digitChar d) = true ∧ decVal (digitChar d) = d := by
  interval_cases d <;> decide

theorem digitChar_lowhex {d : Nat} (h : d < 16) :
    isLowHexDigit (digitChar d) = true ∧ lowHexVal (digitChar d) = d := by
  interval_cases d <;> decide

theorem decDigit_ne {c : Char} (h : isDecDigit c = true) :
    c ≠ '.' ∧ c ≠ '-' ∧ c ≠ '+' ∧ isJSSpace c = false := by
  obtain ⟨h1, h2⟩ := decDigit_toNat h
  refine ⟨?_, ?_, ?_, ?_⟩
  · intro hc
    rw [hc] at h1
    revert h1
    decide
  · intro hc
    rw [hc] at h1
    revert h1
    decide
  · intro hc
    rw [hc] at h1
    revert h1
    decide
  · rcases hsp : isJSSpace c with _ | _
    · rfl
    · exfalso
      simp only [isJSSpace, Bool.or_eq_true, decide_eq_true_eq] at hsp
      rcases hsp with ((((hc | hc) | hc) | hc) | hc) | hc <;>
        · rw [hc] at h1
          revert h1
          decide

theorem lowHex_ne_colon {c : Char} (h : isLowHexDigit c = true) : c ≠ ':' := by
  rcases lowHex_toNat h with ⟨h1, h2⟩ | ⟨h1, h2⟩
  · intro hc
    rw [hc] at h2
    revert h2
    decide
  · intro hc
    rw [hc] at h1
    revert h1
    decide

theorem zero_eq_of_toNat {c : Char} (h : c.toNat = 48) : c = '0' := by
  have := Char.ofNat_toNat c
  rw [h] at this
  exact this.symm

/-! ### The rendering `natToChars` and its value -/

theorem natToCharsRev_zero (b fuel : Nat) : natToCharsRev b fuel 0 = [] := by
  cases fuel <;> simp [natToCharsRev]

theorem natToCharsRev_succ (b f n : Nat) (hn : n ≠ 0) :
    natToCharsRev b (f + 1) n = digitChar (n % b) :: natToCharsRev b f (n / b) := by
  conv_lhs => rw [natToCharsRev]
  rw [if_neg hn]

theorem natToCharsRev_unfold (b fuel n : Nat) (hn : 0 < n) (hf : n ≤ fuel) :
    natToCharsRev b fuel n = digitChar (n % b) :: natToCharsRev b (fuel - 1) (n / b) := by
  cases fuel with
  | zero => omega
  | succ f =>
    rw [natToCharsRev_succ b f n (by omega)]
    rfl

theorem natToCharsRev_fuel (b : Nat) (hb : 2 ≤ b) :
    ∀ f1 f2 n, n ≤ f1 → n ≤ f2 → natToCharsRev b f1 n = natToCharsRev b f2 n := by
  intro f1
  induction f1 with
  | zero =>
    intro f2 n h1 h2
    have : n = 0 := by omega
    subst this
    rw [natToCharsRev_zero, natToCharsRev_zero]
  | succ f ih =>
    intro f2 n h1 h2
    rcases Nat.eq_zero_or_pos n with rfl | hn
    · rw [natToCharsRev_zero, natToCharsRev_zero]
    · have hdiv : n / b < n := Nat.div_lt_self hn (by omega)
      rw [natToCharsRev_unfold b (f + 1) n hn h1, natToCharsRev_unfold b f2 n hn h2]
      simp only [Nat.add_sub_cancel]
      rw [ih (f2 - 1) (n / b) (by omega) (by omega)]

theorem natToCharsRev_digits10 :
    ∀ fuel n, ∀ c ∈ natToCharsRev 10 fuel n, isDecDigit c = true := by
  intro fuel
  induction fuel with
  | zero => intro n c hc; simp [natToCharsRev] at hc
  | succ f ih =>
    intro n c hc
    rcases Nat.eq_zero_or_pos n with rfl | hn
    · rw [natToCharsRev_zero] at hc
      simp at hc
    · rw [natToCharsRev_succ 10 f n (by omega)] at hc
      simp only [List.mem_cons] at hc
      rcases hc with rfl | hc
      · exact (digitChar_dec (Nat.mod_lt n (by omega))).1
      · exact ih (n / 10) c hc

theorem natToCharsRev_digits16 :
    ∀ fuel n, ∀ c ∈ natToCharsRev 16 fuel n, isLowHexDigit c = true := by
  intro fuel
  induction fuel with
  | zero => intro n c hc; simp [natToCharsRev] at hc
  | succ f ih =>
    intro n c hc
    rcases Nat.eq_zero_or_pos n with rfl | hn
    · rw [natToCharsRev_zero] at hc
      simp at hc
    · rw [natToCharsRev_succ 16 f n (by omega)] at hc
      simp only [List.mem_cons] at hc
      rcases hc with rfl | hc
      · exact (digitChar_lowhex (Nat.mod_lt n (by omega))).1
      · exact ih (n / 16) c hc

theorem natToChars_digits10 (n : Nat) : ∀ c ∈ natToChars 10 n, isDecDigit c = true := by
  intro c hc
  unfold natToChars at hc
  split at hc
  · simp at hc
    subst hc
    decide
  · rw [List.mem_reverse] at hc
    exact natToCharsRev_digits10 n n c hc

theorem natToChars_digits16 (n : Nat) : ∀ c ∈ natToChars 16 n, isLowHexDigit c = true := by
  intro c hc
  unfold natToChars at hc
  split at hc
  · simp at hc
    subst hc
    decide
  · rw [List.mem_reverse] at hc
    exact natToCharsRev_digits16 n n c hc

theorem natToChars_ne_nil (b n : Nat) (_hb : 2 ≤ b) : natToChars b n ≠ [] := by
  unfold natToChars
  split
  · simp
  · intro h
    rw [List.reverse_eq_nil_iff] at h
    have hn : 0 < n := by omega
    rw [natToCharsRev_unfold b n n hn le_rfl] at h
    simp at h

theorem decValBE_append_one (A : List Char) (c : Char) :
    decValBE (A ++ [c]) = decValBE A * 10 + decVal c := by
  simp [decValBE, List.foldl_append]

theorem hexValBE_append_one (A : List Char) (c : Char) :
    hexValBE (A ++ [c]) = hexValBE A * 16 + lowHexVal c := by
  simp [hexValBE, List.foldl_append]

theorem natToCharsRev_val10 :
    ∀ fuel n, n ≤ fuel → decValBE (natToCharsRev 10 fuel n).reverse = n := by
  intro fuel
  induction fuel with
  | zero =>
    intro n h
    have : n = 0 := by omega
    subst this
    rw [natToCharsRev_zero]
    rfl
  | succ f ih =>
    intro n h
    rcases Nat.eq_zero_or_pos n with rfl | hn
    · rw [natToCharsRev_zero]
      rfl
    · have hdiv : n / 10 < n := Nat.div_lt_self hn (by omega)
      rw [natToCharsRev_unfold 10 (f + 1) n hn h]
      simp only [Nat.add_sub_cancel, List.reverse_cons]
      rw [decValBE_append_one, ih (n / 10) (by omega),
        (digitChar_dec (Nat.mod_lt n (by omega))).2]
      omega

theorem natToCharsRev_val16 :
    ∀ fuel n, n ≤ fuel → hexValBE (natToCharsRev 16 fuel n).reverse = n := by
  intro fuel
  induction fuel with
  | zero =>
    intro n h
    have : n = 0 := by omega
    subst this
    rw [natToCharsRev_zero]
    rfl
  | succ f ih =>
    intro n h
    rcases Nat.eq_zero_or_pos n with rfl | hn
    · rw [natToCharsRev_zero]
      rfl
    · have hdiv : n / 16 < n := Nat.div_lt_self hn (by omega)
      rw [natToCharsRev_unfold 16 (f + 1) n hn h]
      simp only [Nat.add_sub_cancel, List.reverse_cons]
      rw [hexValBE_append_one, ih (n / 16) (by omega),
        (digitChar_lowhex (Nat.mod_lt n (by omega))).2]
      omega

theorem natToChars_val10 (n : Nat) : decValBE (natToChars 10 n) = n := by
  unfold natToChars
  split
  · subst ‹n = 0›
    rfl
  · exact natToCharsRev_val10 n n le_rfl

theorem natToChars_val16 (n : Nat) : hexValBE (natToChars 16 n) = n := by
  unfold natToChars
  split
  · subst ‹n = 0›
    rfl
  · exact natToCharsRev_val16 n n le_rfl

theorem natToCharsRev_len (b : Nat) (hb : 2 ≤ b) :
    ∀ fuel k n, n < b ^ k → (natToCharsRev b fuel n).length ≤ k := by
  intro fuel
  induction fuel with
  | zero => intro k n _; simp [natToCharsRev]
  | succ f ih =>
    intro k n hk
    rcases Nat.eq_zero_or_pos n with rfl | hn
    · rw [natToCharsRev_zero]
      simp
    · have hkpos : 1 ≤ k := by
        by_contra hh
        have : k = 0 := by omega
        subst this
        simp at hk
        omega
      rw [natToCharsRev_succ b f n (by omega)]
      simp only [List.length_cons]
      have hlt : n / b < b ^ (k - 1) := by
        rw [Nat.div_lt_iff_lt_mul (by omega)]
        calc n < b ^ k := hk
        _ = b ^ (k - 1) * b := by
          conv_lhs => rw [show k = (k - 1) + 1 by omega]
          rw [Nat.pow_succ]
      have := ih (k - 1) (n / b) hlt
      omega

/-! ### `parseInt` on all-digit strings, and splitting formatted text -/

theorem parseDigitRun_all :
    ∀ (g : List Char) (acc : Nat), (∀ c ∈ g, isDecDigit c = true) →
      parseDigitRun acc g = g.foldl (fun a c => a * 10 + decVal c) acc := by
  intro g
  induction g with
  | nil => intro acc _; rfl
  | cons c cs ih =>
    intro acc hd
    rw [parseDigitRun, if_pos (hd c (List.mem_cons_self _ _))]
    rw [ih _ (fun x hx => hd x (List.mem_cons_of_mem c hx))]
    rfl

theorem parseDigitsHead_all (g : List Char) (hne : g ≠ [])
    (hd : ∀ c ∈ g, isDecDigit c = true) : parseDigitsHead g = some (decValBE g) := by
  cases g with
  | nil => exact absurd rfl hne
  | cons c cs =>
    rw [parseDigitsHead, if_pos (hd c (List.mem_cons_self _ _))]
    rw [parseDigitRun_all cs _ (fun x hx => hd x (List.mem_cons_of_mem c hx))]
    simp [decValBE]

theorem parseIntDec_digits (g : List Char) (hne : g ≠ [])
    (hd : ∀ c ∈ g, isDecDigit c = true) : parseIntDec g = some ((decValBE g : Int)) := by
  cases g with
  | nil => exact absurd rfl hne
  | cons c cs =>
    have hc := decDigit_ne (hd c (List.mem_cons_self _ _))
    have hdrop : (c :: cs).dropWhile isJSSpace = c :: cs := by
      rw [List.dropWhile_cons_of_neg]
      simp [hc.2.2.2]
    rw [parseIntDec, hdrop]
    simp only [if_neg hc.2.1, if_neg hc.2.2.1]
    rw [parseDigitsHead_all _ (by simp) hd]
    rfl

theorem splitOnChar_no_sep (sep : Char) :
    ∀ a, sep ∉ a → splitOnChar sep a = [a] := by
  intro a
  induction a with
  | nil => intro _; rfl
  | cons c cs ih =>
    intro h
    have hc : c ≠ sep := fun hcc => h (hcc ▸ List.mem_cons_self _ _)
    rw [splitOnChar, if_neg hc, ih (fun hm => h (List.mem_cons_of_mem c hm))]

theorem splitOnChar_sep_append (sep : Char) :
    ∀ a rest, sep ∉ a →
      splitOnChar sep (a ++ sep :: rest) = a :: splitOnChar sep rest := by
  intro a
  induction a with
  | nil =>
    intro rest _
    simp only [List.nil_append]
    rw [splitOnChar, if_pos rfl]
  | cons c cs ih =>
    intro rest h
    have hc : c ≠ sep := fun hcc => h (hcc ▸ List.mem_cons_self _ _)
    simp only [List.cons_append]
    rw [splitOnChar, if_neg hc, ih rest (fun hm => h (List.mem_cons_of_mem c hm))]

theorem joinSep_split (sep : Char) : ∀ s, joinSep sep (splitOnChar sep s) = s := by
  intro s
  induction s with
  | nil => rfl
  | cons c cs ih =>
    by_cases hc : c = sep
    · subst hc
      rw [splitOnChar, if_pos rfl]
      cases hsp : splitOnChar c cs with
      | nil => exact absurd hsp (splitOnChar_ne_nil c cs)
      | cons g gs =>
        rw [joinSep]
        rw [hsp] at ih
        rw [ih]
        rfl
    · rw [splitOnChar, if_neg hc]
      cases hsp : splitOnChar sep cs with
      | nil => exact absurd hsp (splitOnChar_ne_nil sep cs)
      | cons g gs =>
        rw [hsp] at ih
        cases gs with
        | nil =>
          rw [joinSep] at ih ⊢
          rw [ih]
        | cons g2 gs2 =>
          rw [joinSep] at ih ⊢
          simp only [List.cons_append]
          rw [ih]

theorem foldl_decVal_ge :
    ∀ (g : List Char) (acc : Nat), acc ≤ g.foldl (fun a c => a * 10 + decVal c) acc := by
  intro g
  induction g with
  | nil => intro acc; exact le_rfl
  | cons c cs ih =>
    intro acc
    calc acc ≤ acc * 10 + decVal c := by omega
    _ ≤ cs.foldl (fun a c => a * 10 + decVal c) (acc * 10 + decVal c) := ih _

theorem decValBE_head_pos {c : Char} {rest : List Char} (hd : isDecDigit c = true)
    (hne : c ≠ '0') : 1 ≤ decValBE (c :: rest) := by
  have h1 : decValBE (c :: rest) = rest.foldl (fun a c => a * 10 + decVal c) (decVal c) := by
    simp [decValBE]
  rw [h1]
  have h2 := foldl_decVal_ge rest (decVal c)
  have h3 : decVal c ≠ 0 := by
    intro h0
    obtain ⟨hl, _⟩ := decDigit_toNat hd
    have h48 : '0'.toNat = 48 := rfl
    unfold decVal at h0
    exact hne (zero_eq_of_toNat (by omega))
  omega

theorem natToChars_single {d : Nat} (h : d < 10) : natToChars 10 d = [digitChar d] := by
  interval_cases d <;> decide

theorem natToChars_step {m d : Nat} (hm : 1 ≤ m) (hd : d < 10) :
    natToChars 10 (m * 10 + d) = natToChars 10 m ++ [digitChar d] := by
  have hne : m * 10 + d ≠ 0 := by omega
  rw [natToChars, if_neg hne]
  rw [natToCharsRev_unfold 10 (m * 10 + d) (m * 10 + d) (by omega) le_rfl]
  have hmod : (m * 10 + d) % 10 = d := by omega
  have hdiv : (m * 10 + d) / 10 = m := by omega
  rw [hmod, hdiv]
  rw [natToCharsRev_fuel 10 (by omega) (m * 10 + d - 1) m m (by omega) le_rfl]
  rw [List.reverse_cons]
  rw [natToChars, if_neg (by omega)]

theorem mindec_inverse :
    ∀ (g : List Char), (∀ c ∈ g, isDecDigit c = true) → g ≠ [] →
      (g.head? = some '0' → g = ['0']) → natToChars 10 (decValBE g) = g := by
  intro g
  induction g using List.reverseRecOn with
  | nil => intro _ hne _; exact absurd rfl hne
  | append_singleton A c ih =>
    intro hd _ hlead
    cases A with
    | nil =>
      have hdc : isDecDigit c = true := hd c (by simp)
      have hv : decValBE [c] = decVal c := by simp [decValBE]
      have h48 : '0'.toNat = 48 := rfl
      rw [List.nil_append, hv,
        natToChars_single (show decVal c < 10 by have := decDigit_toNat hdc; unfold decVal; omega)]
      rw [digit_inverse hdc]
    | cons a0 A' =>
      have hlen : (a0 :: A' ++ [c]).length = A'.length + 2 := by simp
      have ha0 : a0 ≠ '0' := by
        intro h0
        have := hlead (by rw [h0]; simp)
        have hl2 : (a0 :: A' ++ [c]).length = 1 := by rw [this]; rfl
        omega
      have hdA : ∀ x ∈ a0 :: A', isDecDigit x = true := by
        intro x hx
        refine hd x ?_
        simp only [List.mem_cons, List.mem_append] at hx ⊢
        tauto
      have hdc : isDecDigit c = true := hd c (by simp)
      rw [show (a0 :: A') ++ [c] = (a0 :: A') ++ [c] from rfl, decValBE_append_one]
      have hpos : 1 ≤ decValBE (a0 :: A') :=
        decValBE_head_pos (hdA a0 (List.mem_cons_self _ _)) ha0
      have h48 : '0'.toNat = 48 := rfl
      rw [natToChars_step hpos (show decVal c < 10 by have := decDigit_toNat hdc; unfold decVal; omega)]
      rw [ih hdA (by simp) (fun hh => by simp at hh; exact absurd hh ha0)]
      rw [digit_inverse hdc]

/-! ### Hex groups: values, rendering, padding -/

theorem lowHexVal_lt {c : Char} (h : isLowHexDigit c = true) : lowHexVal c < 16 := by
  have h48 : '0'.toNat = 48 := rfl
  have h97 : 'a'.toNat = 97 := rfl
  have h57 : '9'.toNat = 57 := rfl
  unfold lowHexVal
  rcases lowHex_toNat h with ⟨h1, h2⟩ | ⟨h1, h2⟩
  · rw [if_pos (show c ≤ '9' from show c.toNat ≤ '9'.toNat by omega)]
    omega
  · rw [if_neg (show ¬ c ≤ '9' from fun hc => by
      have : c.toNat ≤ 57 := hc
      omega)]
    omega

theorem foldl_hexVal_ge :
    ∀ (g : List Char) (acc : Nat), acc ≤ g.foldl (fun a c => a * 16 + lowHexVal c) acc := by
  intro g
  induction g with
  | nil => intro acc; exact le_rfl
  | cons c cs ih =>
    intro acc
    calc acc ≤ acc * 16 + lowHexVal c := by omega
    _ ≤ cs.foldl (fun a c => a * 16 + lowHexVal c) (acc * 16 + lowHexVal c) := ih _

theorem foldl_hexVal_lt :
    ∀ (g : List Char) (acc : Nat), (∀ c ∈ g, isLowHexDigit c = true) →
      g.foldl (fun a c => a * 16 + lowHexVal c) acc < (acc + 1) * 16 ^ g.length := by
  intro g
  induction g with
  | nil => intro acc _; simp
  | cons c cs ih =>
    intro acc hd
    have hv := lowHexVal_lt (hd c (List.mem_cons_self _ _))
    have h1 := ih (acc * 16 + lowHexVal c) (fun x hx => hd x (List.mem_cons_of_mem c hx))
    have h2 : (acc * 16 + lowHexVal c + 1) * 16 ^ cs.length ≤ (acc + 1) * 16 ^ (cs.length + 1) := by
      rw [Nat.pow_succ]
      have : acc * 16 + lowHexVal c + 1 ≤ (acc + 1) * 16 := by omega
      calc (acc * 16 + lowHexVal c + 1) * 16 ^ cs.length
          ≤ ((acc + 1) * 16) * 16 ^ cs.length := Nat.mul_le_mul_right _ this
        _ = (acc + 1) * (16 ^ cs.length * 16) := by ring
    simp only [List.length_cons, List.foldl_cons]
    calc cs.foldl (fun a c => a * 16 + lowHexVal c) (acc * 16 + lowHexVal c)
        < (acc * 16 + lowHexVal c + 1) * 16 ^ cs.length := h1
      _ ≤ (acc + 1) * 16 ^ (cs.length + 1) := h2

theorem hexValBE_lt (g : List Char) (hd : ∀ c ∈ g, isLowHexDigit c = true) :
    hexValBE g < 16 ^ g.length := by
  have := foldl_hexVal_lt g 0 hd
  simpa [hexValBE] using this

theorem hexValBE_head_pos {c : Char} {rest : List Char} (hd : isLowHexDigit c = true)
    (hne : c ≠ '0') : 1 ≤ hexValBE (c :: rest) := by
  have h1 : hexValBE (c :: rest) = rest.foldl (fun a c => a * 16 + lowHexVal c) (lowHexVal c) := by
    simp [hexValBE]
  rw [h1]
  have h2 := foldl_hexVal_ge rest (lowHexVal c)
  have h3 : lowHexVal c ≠ 0 := by
    intro h0
    have h48 : '0'.toNat = 48 := rfl
    have h97 : 'a'.toNat = 97 := rfl
    have h57 : '9'.toNat = 57 := rfl
    unfold lowHexVal at h0
    rcases lowHex_toNat hd with ⟨hl, hr⟩ | ⟨hl, hr⟩
    · rw [if_pos (show c ≤ '9' from show c.toNat ≤ '9'.toNat by omega)] at h0
      exact hne (zero_eq_of_toNat (by omega))
    · rw [if_neg (show ¬ c ≤ '9' from fun hc => by
        have : c.toNat ≤ 57 := hc
        omega)] at h0
      omega
  omega

theorem natToChars_single16 {d : Nat} (h : d < 16) : natToChars 16 d = [digitChar d] := by
  interval_cases d <;> decide

theorem natToChars_step16 {m d : Nat} (hm : 1 ≤ m) (hd : d < 16) :
    natToChars 16 (m * 16 + d) = natToChars 16 m ++ [digitChar d] := by
  have hne : m * 16 + d ≠ 0 := by omega
  rw [natToChars, if_neg hne]
  rw [natToCharsRev_unfold 16 (m * 16 + d) (m * 16 + d) (by omega) le_rfl]
  have hmod : (m * 16 + d) % 16 = d := by omega
  have hdiv : (m * 16 + d) / 16 = m := by omega
  rw [hmod, hdiv]
  rw [natToCharsRev_fuel 16 (by omega) (m * 16 + d - 1) m m (by omega) le_rfl]
  rw [List.reverse_cons]
  rw [natToChars, if_neg (by omega)]

theorem lowhex_nolead_inverse :
    ∀ (g : List Char), (∀ c ∈ g, isLowHexDigit c = true) → g ≠ [] →
      g.head? ≠ some '0' → natToChars 16 (hexValBE g) = g := by
  intro g
  induction g using List.reverseRecOn with
  | nil => intro _ hne _; exact absurd rfl hne
  | append_singleton A c ih =>
    intro hd _ hlead
    cases A with
    | nil =>
      have hdc : isLowHexDigit c = true := hd c (by simp)
      have hv : hexValBE [c] = lowHexVal c := by simp [hexValBE]
      rw [List.nil_append, hv, natToChars_single16 (lowHexVal_lt hdc), lowhex_inverse hdc]
    | cons a0 A' =>
      have ha0 : a0 ≠ '0' := by
        intro h0
        exact hlead (by rw [h0]; rfl)
      have hdA : ∀ x ∈ a0 :: A', isLowHexDigit x = true := by
        intro x hx
        refine hd x ?_
        simp only [List.mem_cons, List.mem_append] at hx ⊢
        tauto
      have hdc : isLowHexDigit c = true := hd c (by simp)
      rw [hexValBE_append_one]
      have hpos : 1 ≤ hexValBE (a0 :: A') :=
        hexValBE_head_pos (hdA a0 (List.mem_cons_self _ _)) ha0
      rw [natToChars_step16 hpos (lowHexVal_lt hdc)]
      rw [ih hdA (by simp) (by simp; exact ha0)]
      rw [lowhex_inverse hdc]

theorem hexValBE_zero_cons (t : List Char) : hexValBE ('0' :: t) = hexValBE t := by
  simp [hexValBE, lowHexVal]

theorem natToChars_len16 {m : Nat} (hm : m < 65536) : (natToChars 16 m).length ≤ 4 := by
  unfold natToChars
  split
  · simp
  · rw [List.length_reverse]
    exact natToCharsRev_len 16 (by omega) m 4 m (by omega)

theorem pad4Hex_eq (m : Nat) (h : (natToChars 16 m).length ≤ 4) :
    pad4Hex m = List.replicate (4 - (natToChars 16 m).length) '0' ++ natToChars 16 m := by
  have hne := natToChars_ne_nil 16 m (by omega)
  unfold pad4Hex
  rcases hX : natToChars 16 m with _ | ⟨x1, _ | ⟨x2, _ | ⟨x3, _ | ⟨x4, rest⟩⟩⟩⟩
  · exact absurd hX hne
  · rfl
  · rfl
  · rfl
  · cases rest with
    | nil => rfl
    | cons x5 rest2 =>
      rw [hX] at h
      simp at h

theorem pad4Hex_chars (m : Nat) : ∀ c ∈ pad4Hex m, isLowHexDigit c = true := by
  intro c hc
  unfold pad4Hex at hc
  have hc2 := List.mem_of_mem_drop hc
  simp only [List.mem_cons] at hc2
  rcases hc2 with rfl | rfl | rfl | hc2
  · decide
  · decide
  · decide
  · exact natToChars_digits16 m c hc2

theorem pad4Hex_group :
    ∀ g : List Char, g.length = 4 → (∀ c ∈ g, isLowHexDigit c = true) →
      pad4Hex (hexValBE g) = g := by
  intro g hlen hd
  rcases g with _ | ⟨c1, _ | ⟨c2, _ | ⟨c3, _ | ⟨c4, _ | _⟩⟩⟩⟩ <;> simp at hlen
  have hd1 : isLowHexDigit c1 = true := hd c1 (by simp)
  have hd2 : isLowHexDigit c2 = true := hd c2 (by simp)
  have hd3 : isLowHexDigit c3 = true := hd c3 (by simp)
  have hd4 : isLowHexDigit c4 = true := hd c4 (by simp)
  by_cases h1 : c1 = '0'
  · subst h1
    rw [hexValBE_zero_cons]
    by_cases h2 : c2 = '0'
    · subst h2
      rw [hexValBE_zero_cons]
      by_cases h3 : c3 = '0'
      · subst h3
        rw [hexValBE_zero_cons]
        by_cases h4 : c4 = '0'
        · subst h4
          decide
        · have hni := lowhex_nolead_inverse [c4] (by simpa using hd4) (by simp)
            (by simpa using h4)
          rw [pad4Hex_eq _ (by rw [hni]; simp), hni]
          rfl
      · have hni := lowhex_nolead_inverse [c3, c4]
          (by
            intro x hx
            simp only [List.mem_cons, List.not_mem_nil, or_false] at hx
            rcases hx with rfl | rfl
            · exact hd3
            · exact hd4)
          (by simp) (by simpa using h3)
        rw [pad4Hex_eq _ (by rw [hni]; simp), hni]
        rfl
    · have hni := lowhex_nolead_inverse [c2, c3, c4]
        (by
          intro x hx
          simp only [List.mem_cons, List.not_mem_nil, or_false] at hx
          rcases hx with rfl | rfl | rfl
          · exact hd2
          · exact hd3
          · exact hd4)
        (by simp) (by simpa using h2)
      rw [pad4Hex_eq _ (by rw [hni]; simp), hni]
      rfl
  · have hni := lowhex_nolead_inverse [c1, c2, c3, c4] hd (by simp) (by simpa using h1)
    rw [pad4Hex_eq _ (by rw [hni]; simp), hni]
    rfl

theorem hexVal?_lowhex {c : Char} (h : isLowHexDigit c = true) :
    hexVal? c = some (lowHexVal c) := by
  have h48 : '0'.toNat = 48 := rfl
  have h97 : 'a'.toNat = 97 := rfl
  have h57 : '9'.toNat = 57 := rfl
  unfold hexVal? lowHexVal
  rcases lowHex_toNat h with ⟨h1, h2⟩ | ⟨h1, h2⟩
  · rw [if_pos]
    · rw [if_pos (show c ≤ '9' from show c.toNat ≤ '9'.toNat by omega)]
    · simp only [Bool.and_eq_true, decide_eq_true_eq]
      exact ⟨show c.toNat ≤ ('9').toNat by omega, show ('0').toNat ≤ c.toNat by omega⟩
  · rw [if_neg, if_pos, if_neg (show ¬ c ≤ '9' from fun hc => by
      have : c.toNat ≤ 57 := hc
      omega)]
    · simp only [Bool.and_eq_true, decide_eq_true_eq]
      refine ⟨show c.toNat ≤ ('f').toNat from ?_, show ('a').toNat ≤ c.toNat by omega⟩
      have hf : ('f').toNat = 102 := rfl
      omega
    · simp only [Bool.and_eq_true, decide_eq_true_eq, not_and]
      intro hc9
      have : c.toNat ≤ ('9').toNat := hc9
      intro hc0
      omega

theorem hexRun_all :
    ∀ (g : List Char) (acc : Nat), (∀ c ∈ g, isLowHexDigit c = true) →
      hexRun acc g = some (g.foldl (fun a c => a * 16 + lowHexVal c) acc) := by
  intro g
  induction g with
  | nil => intro acc _; rfl
  | cons c cs ih =>
    intro acc hd
    rw [hexRun, hexVal?_lowhex (hd c (List.mem_cons_self _ _))]
    exact ih _ (fun x hx => hd x (List.mem_cons_of_mem c hx))

theorem hexRun_zeros :
    ∀ (j : Nat) (t : List Char), hexRun 0 (List.replicate j '0' ++ t) = hexRun 0 t := by
  intro j
  induction j with
  | zero => intro t; rfl
  | succ j ih =>
    intro t
    rw [List.replicate_succ, List.cons_append, hexRun]
    rw [show hexVal? '0' = some 0 from rfl]
    exact ih t

theorem parseHexBigInt_pad4 {m : Nat} (hm : m < 65536) :
    parseHexBigInt (pad4Hex m) = some m := by
  have hlen := natToChars_len16 hm
  have hpe := pad4Hex_eq m hlen
  have hne := natToChars_ne_nil 16 m (by omega)
  have hform : parseHexBigInt (pad4Hex m) = hexRun 0 (pad4Hex m) := by
    rcases hp : pad4Hex m with _ | ⟨c, t⟩
    · exfalso
      rw [hpe] at hp
      rcases hX : natToChars 16 m with _ | ⟨x, xs⟩
      · exact hne hX
      · rw [hX] at hp
        simp at hp
    · rfl
  rw [hform, hpe, hexRun_zeros]
  rw [hexRun_all _ _ (natToChars_digits16 m)]
  have : (natToChars 16 m).foldl (fun a c => a * 16 + lowHexVal c) 0 = hexValBE (natToChars 16 m) := rfl
  rw [this, natToChars_val16]

/-! ### The codec round trips (claim C5) -/

theorem natToChars10_no_dot (n : Nat) : '.' ∉ natToChars 10 n := by
  intro hm
  have := natToChars_digits10 n '.' hm
  exact absurd this (by decide)

theorem toIPv4AddrString_shape (a : Nat) (h : a < 4294967296) :
    toIPv4AddrString a =
      natToChars 10 (a / 16777216 % 256) ++ '.' :: (natToChars 10 (a / 65536 % 256)
        ++ '.' :: (natToChars 10 (a / 256 % 256) ++ '.' :: natToChars 10 (a % 256))) := by
  simp only [toIPv4AddrString]
  rw [Nat.mod_eq_of_lt h]
  simp [List.cons_append, List.append_assoc]

theorem splitOnChar_toIPv4AddrString (a : Nat) (h : a < 4294967296) :
    splitOnChar '.' (toIPv4AddrString a) =
      [natToChars 10 (a / 16777216 % 256), natToChars 10 (a / 65536 % 256),
       natToChars 10 (a / 256 % 256), natToChars 10 (a % 256)] := by
  rw [toIPv4AddrString_shape a h]
  rw [splitOnChar_sep_append '.' _ _ (natToChars10_no_dot _),
    splitOnChar_sep_append '.' _ _ (natToChars10_no_dot _),
    splitOnChar_sep_append '.' _ _ (natToChars10_no_dot _),
    splitOnChar_no_sep '.' _ (natToChars10_no_dot _)]

theorem parseIntDec_natToChars (n : Nat) :
    parseIntDec (natToChars 10 n) = some ((n : Int)) := by
  rw [parseIntDec_digits (natToChars 10 n) (natToChars_ne_nil 10 n (by omega))
    (natToChars_digits10 n), natToChars_val10]

theorem toIPv4_parse_format {a : Nat} (h : a < 4294967296) :
    toIPv4AddrInteger (toIPv4AddrString a) = some ((a : Int)) := by
  simp only [toIPv4AddrInteger]
  rw [splitOnChar_toIPv4AddrString a h]
  simp only [List.getElem?_cons_zero, List.getElem?_cons_succ, Option.some_bind]
  rw [parseIntDec_natToChars, parseIntDec_natToChars, parseIntDec_natToChars,
    parseIntDec_natToChars]
  simp only [Option.some.injEq]
  have : ((a / 16777216 % 256 : Nat) : Int) * 16777216 + ((a / 65536 % 256 : Nat) : Int) * 65536
      + ((a / 256 % 256 : Nat) : Int) * 256 + ((a % 256 : Nat) : Int)
      = ((a / 16777216 % 256 * 16777216 + a / 65536 % 256 * 65536
          + a / 256 % 256 * 256 + a % 256 : Nat) : Int) := by
    push_cast
    ring
  rw [this]
  have harith : a / 16777216 % 256 * 16777216 + a / 65536 % 256 * 65536
      + a / 256 % 256 * 256 + a % 256 = a := by omega
  rw [harith]

theorem specMinDecOctet_spec {g : List Char} (h : specMinDecOctet g = true) :
    (∀ c ∈ g, isDecDigit c = true) ∧ g ≠ [] ∧ (g.head? = some '0' → g = ['0'])
      ∧ decValBE g ≤ 255 := by
  unfold specMinDecOctet at h
  simp only [Bool.and_eq_true, Bool.not_eq_true', List.all_eq_true, decide_eq_true_eq,
    Bool.or_eq_true, beq_iff_eq, beq_eq_false_iff_ne, ne_eq] at h
  obtain ⟨⟨⟨h1, h2⟩, h3⟩, h4⟩ := h
  refine ⟨h2, ?_, ?_, h4⟩
  · intro hnil
    rw [hnil] at h1
    simp at h1
  · intro hh
    rcases h3 with h3 | h3
    · exact absurd hh h3
    · exact h3

theorem toIPv4_format_parse {s : List Char} (h : specCanonIPv4 s = true) :
    ∃ v : Nat, toIPv4AddrInteger s = some ((v : Int)) ∧ toIPv4AddrString v = s := by
  unfold specCanonIPv4 at h
  rcases hsp : splitOnChar '.' s with _ | ⟨g0, _ | ⟨g1, _ | ⟨g2, _ | ⟨g3, _ | rest⟩⟩⟩⟩
  · rw [hsp] at h
    exact Bool.noConfusion (show false = true from h)
  · rw [hsp] at h
    exact Bool.noConfusion (show false = true from h)
  · rw [hsp] at h
    exact Bool.noConfusion (show false = true from h)
  · rw [hsp] at h
    exact Bool.noConfusion (show false = true from h)
  rotate_left
  · rw [hsp] at h
    exact Bool.noConfusion (show false = true from h)
  rw [hsp] at h
  have h2 : (specMinDecOctet g0 && specMinDecOctet g1 && specMinDecOctet g2
      && specMinDecOctet g3) = true := h
  simp only [Bool.and_eq_true] at h2
  obtain ⟨⟨⟨hg0, hg1⟩, hg2⟩, hg3⟩ := h2
  obtain ⟨hd0, hne0, hl0, hb0⟩ := specMinDecOctet_spec hg0
  obtain ⟨hd1, hne1, hl1, hb1⟩ := specMinDecOctet_spec hg1
  obtain ⟨hd2, hne2, hl2, hb2⟩ := specMinDecOctet_spec hg2
  obtain ⟨hd3, hne3, hl3, hb3⟩ := specMinDecOctet_spec hg3
  have hs : s = g0 ++ '.' :: (g1 ++ '.' :: (g2 ++ '.' :: g3)) := by
    have := joinSep_split '.' s
    rw [hsp] at this
    simpa [joinSep] using this.symm
  set v0 := decValBE g0
  set v1 := decValBE g1
  set v2 := decValBE g2
  set v3 := decValBE g3
  refine ⟨v0 * 16777216 + v1 * 65536 + v2 * 256 + v3, ?_, ?_⟩
  · simp only [toIPv4AddrInteger]
    rw [hsp]
    simp only [List.getElem?_cons_zero, List.getElem?_cons_succ, Option.some_bind]
    rw [parseIntDec_digits g0 hne0 hd0, parseIntDec_digits g1 hne1 hd1,
      parseIntDec_digits g2 hne2 hd2, parseIntDec_digits g3 hne3 hd3]
    simp only [Option.some.injEq]
    push_cast
    ring
  · have hv : v0 * 16777216 + v1 * 65536 + v2 * 256 + v3 < 4294967296 := by omega
    rw [toIPv4AddrString_shape _ hv]
    have e0 : (v0 * 16777216 + v1 * 65536 + v2 * 256 + v3) / 16777216 % 256 = v0 := by omega
    have e1 : (v0 * 16777216 + v1 * 65536 + v2 * 256 + v3) / 65536 % 256 = v1 := by omega
    have e2 : (v0 * 16777216 + v1 * 65536 + v2 * 256 + v3) / 256 % 256 = v2 := by omega
    have e3 : (v0 * 16777216 + v1 * 65536 + v2 * 256 + v3) % 256 = v3 := by omega
    rw [e0, e1, e2, e3]
    rw [mindec_inverse g0 hd0 hne0 hl0, mindec_inverse g1 hd1 hne1 hl1,
      mindec_inverse g2 hd2 hne2 hl2, mindec_inverse g3 hd3 hne3 hl3]
    exact hs.symm

theorem pad4Hex_no_colon (m : Nat) : ':' ∉ pad4Hex m := by
  intro hm
  exact absurd rfl (lowHex_ne_colon (pad4Hex_chars m ':' hm))

theorem toIPv6AddrString_shape (n : Nat) :
    toIPv6AddrString n =
      pad4Hex (n / 5192296858534827628530496329220096 % 65536)
        ++ ':' :: (pad4Hex (n / 79228162514264337593543950336 % 65536)
        ++ ':' :: (pad4Hex (n / 1208925819614629174706176 % 65536)
        ++ ':' :: (pad4Hex (n / 18446744073709551616 % 65536)
        ++ ':' :: (pad4Hex (n / 281474976710656 % 65536)
        ++ ':' :: (pad4Hex (n / 4294967296 % 65536)
        ++ ':' :: (pad4Hex (n / 65536 % 65536)
        ++ ':' :: pad4Hex (n % 65536))))))) := by
  simp [toIPv6AddrString, List.cons_append, List.append_assoc]

theorem splitOnChar_toIPv6AddrString (n : Nat) :
    splitOnChar ':' (toIPv6AddrString n) =
      [pad4Hex (n / 5192296858534827628530496329220096 % 65536),
       pad4Hex (n / 79228162514264337593543950336 % 65536),
       pad4Hex (n / 1208925819614629174706176 % 65536),
       pad4Hex (n / 18446744073709551616 % 65536),
       pad4Hex (n / 281474976710656 % 65536),
       pad4Hex (n / 4294967296 % 65536),
       pad4Hex (n / 65536 % 65536),
       pad4Hex (n % 65536)] := by
  rw [toIPv6AddrString_shape n]
  rw [splitOnChar_sep_append ':' _ _ (pad4Hex_no_colon _),
    splitOnChar_sep_append ':' _ _ (pad4Hex_no_colon _),
    splitOnChar_sep_append ':' _ _ (pad4Hex_no_colon _),
    splitOnChar_sep_append ':' _ _ (pad4Hex_no_colon _),
    splitOnChar_sep_append ':' _ _ (pad4Hex_no_colon _),
    splitOnChar_sep_append ':' _ _ (pad4Hex_no_colon _),
    splitOnChar_sep_append ':' _ _ (pad4Hex_no_colon _),
    splitOnChar_no_sep ':' _ (pad4Hex_no_colon _)]

theorem toIPv6_parse_format {a : Nat}
    (h : a < 340282366920938463463374607431768211456) :
    toIPv6AddrInteger (toIPv6AddrString a) = some a := by
  simp only [toIPv6AddrInteger]
  rw [splitOnChar_toIPv6AddrString a]
  simp only [List.getElem?_cons_zero, List.getElem?_cons_succ, Option.some_bind]
  rw [parseHexBigInt_pad4 (Nat.mod_lt _ (by omega)),
    parseHexBigInt_pad4 (Nat.mod_lt _ (by omega)),
    parseHexBigInt_pad4 (Nat.mod_lt _ (by omega)),
    parseHexBigInt_pad4 (Nat.mod_lt _ (by omega)),
    parseHexBigInt_pad4 (Nat.mod_lt _ (by omega)),
    parseHexBigInt_pad4 (Nat.mod_lt _ (by omega)),
    parseHexBigInt_pad4 (Nat.mod_lt _ (by omega)),
    parseHexBigInt_pad4 (Nat.mod_lt _ (by omega))]
  simp only [Option.some.injEq]
  omega

theorem specLowHexGroup_spec {g : List Char} (h : specLowHexGroup g = true) :
    g.length = 4 ∧ ∀ c ∈ g, isLowHexDigit c = true := by
  simp only [specLowHexGroup, Bool.and_eq_true, beq_iff_eq, List.all_eq_true] at h
  exact h

theorem parseHexBigInt_lowhex {g : List Char} (hne : g ≠ [])
    (hd : ∀ c ∈ g, isLowHexDigit c = true) : parseHexBigInt g = some (hexValBE g) := by
  cases g with
  | nil => exact absurd rfl hne
  | cons c cs =>
    have : parseHexBigInt (c :: cs) = hexRun 0 (c :: cs) := rfl
    rw [this, hexRun_all _ _ hd]
    rfl

theorem toIPv6_format_parse {s : List Char} (h : specCanonIPv6 s = true) :
    ∃ v : Nat, toIPv6AddrInteger s = some v ∧ toIPv6AddrString v = s := by
  unfold specCanonIPv6 at h
  rcases hsp : splitOnChar ':' s with _ | ⟨g0, _ | ⟨g1, _ | ⟨g2, _ | ⟨g3, _ | ⟨g4,
    _ | ⟨g5, _ | ⟨g6, _ | ⟨g7, _ | rest⟩⟩⟩⟩⟩⟩⟩⟩
  · rw [hsp] at h
    exact Bool.noConfusion (show false = true from h)
  · rw [hsp] at h
    exact Bool.noConfusion (show false = true from h)
  · rw [hsp] at h
    exact Bool.noConfusion (show false = true from h)
  · rw [hsp] at h
    exact Bool.noConfusion (show false = true from h)
  · rw [hsp] at h
    exact Bool.noConfusion (show false = true from h)
  · rw [hsp] at h
    exact Bool.noConfusion (show false = true from h)
  · rw [hsp] at h
    exact Bool.noConfusion (show false = true from h)
  · rw [hsp] at h
    exact Bool.noConfusion (show false = true from h)
  rotate_left
  · rw [hsp] at h
    exact Bool.noConfusion (show false = true from h)
  rw [hsp] at h
  have h2 : (specLowHexGroup g0 && specLowHexGroup g1 && specLowHexGroup g2
      && specLowHexGroup g3 && specLowHexGroup g4 && specLowHexGroup g5
      && specLowHexGroup g6 && specLowHexGroup g7) = true := h
  simp only [Bool.and_eq_true] at h2
  obtain ⟨⟨⟨⟨⟨⟨⟨hg0, hg1⟩, hg2⟩, hg3⟩, hg4⟩, hg5⟩, hg6⟩, hg7⟩ := h2
  obtain ⟨hl0, hd0⟩ := specLowHexGroup_spec hg0
  obtain ⟨hl1, hd1⟩ := specLowHexGroup_spec hg1
  obtain ⟨hl2, hd2⟩ := specLowHexGroup_spec hg2
  obtain ⟨hl3, hd3⟩ := specLowHexGroup_spec hg3
  obtain ⟨hl4, hd4⟩ := specLowHexGroup_spec hg4
  obtain ⟨hl5, hd5⟩ := specLowHexGroup_spec hg5
  obtain ⟨hl6, hd6⟩ := specLowHexGroup_spec hg6
  obtain ⟨hl7, hd7⟩ := specLowHexGroup_spec hg7
  have hne : ∀ (g : List Char), g.length = 4 → g ≠ [] := by
    intro g hg hnil
    rw [hnil] at hg
    simp at hg
  have hvb : ∀ (g : List Char), g.length = 4 → (∀ c ∈ g, isLowHexDigit c = true) →
      hexValBE g < 65536 := by
    intro g hg hd
    have := hexValBE_lt g hd
    rw [hg] at this
    simpa using this
  have hs : s = g0 ++ ':' :: (g1 ++ ':' :: (g2 ++ ':' :: (g3 ++ ':' :: (g4 ++ ':' ::
      (g5 ++ ':' :: (g6 ++ ':' :: g7)))))) := by
    have := joinSep_split ':' s
    rw [hsp] at this
    simpa [joinSep] using this.symm
  set v0 := hexValBE g0
  set v1 := hexValBE g1
  set v2 := hexValBE g2
  set v3 := hexValBE g3
  set v4 := hexValBE g4
  set v5 := hexValBE g5
  set v6 := hexValBE g6
  set v7 := hexValBE g7
  have hb0 := hvb g0 hl0 hd0
  have hb1 := hvb g1 hl1 hd1
  have hb2 := hvb g2 hl2 hd2
  have hb3 := hvb g3 hl3 hd3
  have hb4 := hvb g4 hl4 hd4
  have hb5 := hvb g5 hl5 hd5
  have hb6 := hvb g6 hl6 hd6
  have hb7 := hvb g7 hl7 hd7
  refine ⟨v0 * 5192296858534827628530496329220096 + v1 * 79228162514264337593543950336
    + v2 * 1208925819614629174706176 + v3 * 18446744073709551616
    + v4 * 281474976710656 + v5 * 4294967296 + v6 * 65536 + v7, ?_, ?_⟩
  · simp only [toIPv6AddrInteger]
    rw [hsp]
    simp only [List.getElem?_cons_zero, List.getElem?_cons_succ, Option.some_bind]
    rw [parseHexBigInt_lowhex (hne g0 hl0) hd0, parseHexBigInt_lowhex (hne g1 hl1) hd1,
      parseHexBigInt_lowhex (hne g2 hl2) hd2, parseHexBigInt_lowhex (hne g3 hl3) hd3,
      parseHexBigInt_lowhex (hne g4 hl4) hd4, parseHexBigInt_lowhex (hne g5 hl5) hd5,
      parseHexBigInt_lowhex (hne g6 hl6) hd6, parseHexBigInt_lowhex (hne g7 hl7) hd7]
  · rw [toIPv6AddrString_shape]
    have e0 : (v0 * 5192296858534827628530496329220096 + v1 * 79228162514264337593543950336
        + v2 * 1208925819614629174706176 + v3 * 18446744073709551616
        + v4 * 281474976710656 + v5 * 4294967296 + v6 * 65536 + v7)
        / 5192296858534827628530496329220096 % 65536 = v0 := by omega
    have e1 : (v0 * 5192296858534827628530496329220096 + v1 * 79228162514264337593543950336
        + v2 * 1208925819614629174706176 + v3 * 18446744073709551616
        + v4 * 281474976710656 + v5 * 4294967296 + v6 * 65536 + v7)
        / 79228162514264337593543950336 % 65536 = v1 := by omega
    have e2 : (v0 * 5192296858534827628530496329220096 + v1 * 79228162514264337593543950336
        + v2 * 1208925819614629174706176 + v3 * 18446744073709551616
        + v4 * 281474976710656 + v5 * 4294967296 + v6 * 65536 + v7)
        / 1208925819614629174706176 % 65536 = v2 := by omega
    have e3 : (v0 * 5192296858534827628530496329220096 + v1 * 79228162514264337593543950336
        + v2 * 1208925819614629174706176 + v3 * 18446744073709551616
        + v4 * 281474976710656 + v5 * 4294967296 + v6 * 65536 + v7)
        / 18446744073709551616 % 65536 = v3 := by omega
    have e4 : (v0 * 5192296858534827628530496329220096 + v1 * 79228162514264337593543950336
        + v2 * 1208925819614629174706176 + v3 * 18446744073709551616
        + v4 * 281474976710656 + v5 * 4294967296 + v6 * 65536 + v7)
        / 281474976710656 % 65536 = v4 := by omega
    have e5 : (v0 * 5192296858534827628530496329220096 + v1 * 79228162514264337593543950336
        + v2 * 1208925819614629174706176 + v3 * 18446744073709551616
        + v4 * 281474976710656 + v5 * 4294967296 + v6 * 65536 + v7)
        / 4294967296 % 65536 = v5 := by omega
    have e6 : (v0 * 5192296858534827628530496329220096 + v1 * 79228162514264337593543950336
        + v2 * 1208925819614629174706176 + v3 * 18446744073709551616
        + v4 * 281474976710656 + v5 * 4294967296 + v6 * 65536 + v7)
        / 65536 % 65536 = v6 := by omega
    have e7 : (v0 * 5192296858534827628530496329220096 + v1 * 79228162514264337593543950336
        + v2 * 1208925819614629174706176 + v3 * 18446744073709551616
        + v4 * 281474976710656 + v5 * 4294967296 + v6 * 65536 + v7)
        % 65536 = v7 := by omega
    rw [e0, e1, e2, e3, e4, e5, e6, e7]
    rw [pad4Hex_group g0 hl0 hd0, pad4Hex_group g1 hl1 hd1, pad4Hex_group g2 hl2 hd2,
      pad4Hex_group g3 hl3 hd3, pad4Hex_group g4 hl4 hd4, pad4Hex_group g5 hl5 hd5,
      pad4Hex_group g6 hl6 hd6, pad4Hex_group g7 hl7 hd7]
    exact hs.symm

/-- C5: the address codecs are mutually inverse: parsing the formatted
text of any in-range address integer returns that integer, and formatting
the parsed value of any canonical address text returns that text (IPv4:
four minimal-decimal octets; IPv6: eight lowercase zero-padded 4-hex-digit
groups). -/
theorem claim_C5_roundtrip :
    (∀ a : Nat, a < 2 ^ 32 → toIPv4AddrInteger (toIPv4AddrString a) = some ((a : Int))) ∧
    (∀ s : List Char, specCanonIPv4 s = true →
      ∃ v : Nat, toIPv4AddrInteger s = some ((v : Int)) ∧ toIPv4AddrString v = s) ∧
    (∀ a : Nat, a < 2 ^ 128 → toIPv6AddrInteger (toIPv6AddrString a) = some a) ∧
    (∀ s : List Char, specCanonIPv6 s = true →
      ∃ v : Nat, toIPv6AddrInteger s = some v ∧ toIPv6AddrString v = s) := by
  refine ⟨?_, ?_, ?_, ?_⟩
  · intro a ha
    exact toIPv4_parse_format (by omega)
  · intro s hs
    exact toIPv4_format_parse hs
  · intro a ha
    exact toIPv6_parse_format (by omega)
  · intro s hs
    exact toIPv6_format_parse hs

theorem claim_C5_roundtrip_witness :
    (3232235521 : Nat) < 2 ^ 32 ∧
      toIPv4AddrInteger (toIPv4AddrString 3232235521) = some ((3232235521 : Int)) :=
  ⟨by norm_num, claim_C5_roundtrip.1 3232235521 (by norm_num)⟩

/-! ### C3: the IPv4 check against the four-octet grammar -/

theorem octet_passes_check {g : List Char} (hg : specIPv4Octet g = true) :
    (match parseIntDec g with
     | none => true
     | some v => !(v ≥ 256 || v < 0)) = true := by
  simp only [specIPv4Octet, Bool.and_eq_true, List.all_eq_true, decide_eq_true_eq,
    Bool.not_eq_true'] at hg
  obtain ⟨⟨hne, hd⟩, hle⟩ := hg
  have hne2 : g ≠ [] := by
    intro hnil
    rw [hnil] at hne
    exact Bool.noConfusion hne
  rw [parseIntDec_digits g hne2 hd]
  simp only [ge_iff_le, Bool.not_eq_true', Bool.or_eq_false_iff,
    decide_eq_false_iff_not, not_le, not_lt]
  constructor
  · omega
  · omega

theorem grammar_accepted {s : List Char} (h : specIPv4Grammar s = true) :
    isIPv4Addr s = true := by
  unfold specIPv4Grammar at h
  rcases hsp : splitOnChar '.' s with _ | ⟨g0, _ | ⟨g1, _ | ⟨g2, _ | ⟨g3, _ | rest⟩⟩⟩⟩
  · rw [hsp] at h
    exact Bool.noConfusion (show false = true from h)
  · rw [hsp] at h
    exact Bool.noConfusion (show false = true from h)
  · rw [hsp] at h
    exact Bool.noConfusion (show false = true from h)
  · rw [hsp] at h
    exact Bool.noConfusion (show false = true from h)
  rotate_left
  · rw [hsp] at h
    exact Bool.noConfusion (show false = true from h)
  rw [hsp] at h
  have h2 : (specIPv4Octet g0 && specIPv4Octet g1 && specIPv4Octet g2
      && specIPv4Octet g3) = true := h
  simp only [Bool.and_eq_true] at h2
  obtain ⟨⟨⟨hg0, hg1⟩, hg2⟩, hg3⟩ := h2
  unfold isIPv4Addr
  rw [hsp]
  simp only [List.length_cons, List.length_nil, List.all_cons, List.all_nil]
  rw [if_neg (by omega)]
  rw [octet_passes_check hg0, octet_passes_check hg1, octet_passes_check hg2,
    octet_passes_check hg3]
  rfl

/-- C3: REFUTED as stated.  The converse inclusion does hold (every string
of the four-decimal-octet grammar is accepted), but the check is not the
grammar: `'a.b.c.d'` matches no octet of the grammar, yet `_isIPv4Addr`
accepts it — each octet's `parseInt` is `NaN`, and both rejection tests
`v >= 256` and `v < 0` are false on `NaN` — and the assignment completes
without the address error, installing `NaN` endpoints and an empty subnet
list. -/
theorem claim_C3_check_vs_grammar :
    isIPv4Addr ['a', '.', 'b', '.', 'c', '.', 'd'] = true ∧
    specIPv4Grammar ['a', '.', 'b', '.', 'c', '.', 'd'] = false ∧
    (setIPv4Range initIPv4RangeState ['a', '.', 'b', '.', 'c', '.', 'd']).2 = true ∧
    getIPv4SubnetTexts
      (setIPv4Range initIPv4RangeState ['a', '.', 'b', '.', 'c', '.', 'd']).1 = some [] ∧
    (∀ s : List Char, specIPv4Grammar s = true → isIPv4Addr s = true) := by
  refine ⟨by decide, by decide, by decide, by decide, ?_⟩
  intro s hs
  exact grammar_accepted hs

/-! ### C8: the IPv6 check is lowercase-only -/

/-- C8 counterexample: a text of the eight-group hex grammar whose last
group ends in the uppercase digit `A` is rejected by `_isIPv6Addr` (its
per-character test only admits `0`-`9` and lowercase `a`-`f`), and the
assignment throws, leaving the handle untouched. -/
theorem claim_C8_counterexample :
    specIPv6GrammarAnyCase upperHexSample = true ∧
    isIPv6Addr upperHexSample = false ∧
    setIPv6Range initIPv6RangeState upperHexSample = (initIPv6RangeState, false) := by
  refine ⟨by decide, by decide, by decide⟩

/-- C8, amended: the IPv6 address check accepts exactly the strings of
eight colon-separated groups of exactly four LOWERCASE hex digits — the
claim's "lowercase or uppercase" does not hold, uppercase digits are
rejected. -/
theorem claim_C8_amended (s : List Char) :
    isIPv6Addr s = true ↔ specCanonIPv6 s = true := by
  simp only [isIPv6Addr, specCanonIPv6]
  rcases hsp : splitOnChar ':' s with _ | ⟨g0, _ | ⟨g1, _ | ⟨g2, _ | ⟨g3, _ | ⟨g4,
    _ | ⟨g5, _ | ⟨g6, _ | ⟨g7, _ | rest⟩⟩⟩⟩⟩⟩⟩⟩
  · simp
  · simp
  · simp
  · simp
  · simp
  · simp
  · simp
  · simp
  rotate_left
  · simp
  simp only [List.length_cons, List.length_nil]
  rw [if_neg (by omega)]
  simp only [specLowHexGroup, List.all_cons, List.all_nil, Bool.and_eq_true,
    Bool.and_true, decide_eq_true_eq, beq_iff_eq]
  tauto

theorem claim_C8_amended_witness :
    isIPv6Addr ['0', '0', '0', '0', ':', '0', '0', '0', '0', ':', '0', '0', '0', '0', ':',
      '0', '0', '0', '0', ':', '0', '0', '0', '0', ':', '0', '0', '0', '0', ':',
      '0', '0', '0', '0', ':', '0', '0', '0', 'a'] = true :=
  (claim_C8_amended _).2 (by decide)

/-! ### C2 and C7: what a setter call does to the handle's state -/

theorem setIPv4Range_analysis (st : IPv4RangeState) (str : List Char) :
    (ipv4AddrOk str = false ∧ setIPv4Range st str = (st, false)) ∨
    (ipv4AddrOk str = true ∧
      (setIPv4Range st str).1.intStartAddr ≠ none ∧
      (setIPv4Range st str).1.intEndAddr ≠ none ∧
      ((setIPv4Range st str).2 = true →
        ∃ l, (setIPv4Range st str).1.arraySubnet = some l) ∧
      ((setIPv4Range st str).2 = false →
        (setIPv4Range st str).1.arraySubnet = st.arraySubnet) ∧
      (setIPv4Range st str).2 = (setIPv4Range initIPv4RangeState str).2) := by
  by_cases hok : ipv4AddrOk str = true
  · right
    refine ⟨hok, ?_⟩
    have hcond : (isIPv4Addr ((rangeParts str).getD 0 [])
        && isIPv4Addr ((rangeParts str).getD 1 [])) = true := hok
    simp only [setIPv4Range]
    rw [if_pos hcond, if_pos hcond]
    rcases toIPv4AddrInteger ((rangeParts str).getD 0 []) with _ | x
    · rcases toIPv4AddrInteger ((rangeParts str).getD 1 []) with _ | y
      · exact ⟨by simp, by simp, fun _ => ⟨[], by simp⟩, by simp, rfl⟩
      · exact ⟨by simp, by simp, fun _ => ⟨[], by simp⟩, by simp, rfl⟩
    · rcases toIPv4AddrInteger ((rangeParts str).getD 1 []) with _ | y
      · exact ⟨by simp, by simp, fun _ => ⟨[], by simp⟩, by simp, rfl⟩
      · dsimp only
        by_cases hxy : x > y
        · rw [if_pos hxy, if_pos hxy]
          exact ⟨by simp, by simp, by simp, fun _ => rfl, rfl⟩
        · rw [if_neg hxy, if_neg hxy]
          exact ⟨by simp, by simp, fun _ => ⟨_, rfl⟩, by simp, rfl⟩
  · left
    have hof : ipv4AddrOk str = false := by
      cases h : ipv4AddrOk str
      · rfl
      · exact absurd h hok
    refine ⟨hof, ?_⟩
    have hcond : ¬ ((isIPv4Addr ((rangeParts str).getD 0 [])
        && isIPv4Addr ((rangeParts str).getD 1 [])) = true) := hok
    simp only [setIPv4Range]
    rw [if_neg hcond]

theorem setIPv6Range_analysis (st : IPv6RangeState) (str : List Char) :
    (ipv6AddrOk str = false ∧ setIPv6Range st str = (st, false)) ∨
    (ipv6AddrOk str = true ∧
      ((setIPv6Range st str).2 = true →
        ∃ l, (setIPv6Range st str).1.arraySubnet = some l) ∧
      ((setIPv6Range st str).2 = false →
        (setIPv6Range st str).1.arraySubnet = st.arraySubnet)) := by
  by_cases hok : ipv6AddrOk str = true
  · right
    refine ⟨hok, ?_⟩
    have hcond : (isIPv6Addr ((rangeParts str).getD 0 [])
        && isIPv6Addr ((rangeParts str).getD 1 [])) = true := hok
    simp only [setIPv6Range]
    rw [if_pos hcond]
    rcases toIPv6AddrInteger ((rangeParts str).getD 0 []) with _ | x
    · rcases toIPv6AddrInteger ((rangeParts str).getD 1 []) with _ | y
      · exact ⟨by simp, fun _ => rfl⟩
      · exact ⟨by simp, fun _ => rfl⟩
    · rcases toIPv6AddrInteger ((rangeParts str).getD 1 []) with _ | y
      · exact ⟨by simp, fun _ => rfl⟩
      · dsimp only
        by_cases hxy : x > y
        · rw [if_pos hxy]
          exact ⟨by simp, fun _ => rfl⟩
        · rw [if_neg hxy]
          exact ⟨fun _ => ⟨_, rfl⟩, by simp⟩
  · left
    have hof : ipv6AddrOk str = false := by
      cases h : ipv6AddrOk str
      · rfl
      · exact absurd h hok
    refine ⟨hof, ?_⟩
    have hcond : ¬ ((isIPv6Addr ((rangeParts str).getD 0 [])
        && isIPv6Addr ((rangeParts str).getD 1 [])) = true) := hok
    simp only [setIPv6Range]
    rw [if_neg hcond]

/-- C2 counterexample: on a NEVER-SET handle, the assignment
`'2.0.0.0-1.0.0.0'` (well-formed addresses, inverted order) throws, yet it
does NOT leave the handle unset: the source stores `_intStartAddr` and
`_intEndAddr` before checking the order, so after the failing call the
range accessor succeeds instead of failing. -/
theorem claim_C2_counterexample :
    (setIPv4Range initIPv4RangeState
      ['2', '.', '0', '.', '0', '.', '0', '-', '1', '.', '0', '.', '0', '.', '0']).2
        = false ∧
    (setIPv4Range initIPv4RangeState
      ['2', '.', '0', '.', '0', '.', '0', '-', '1', '.', '0', '.', '0', '.', '0']).1
        ≠ initIPv4RangeState ∧
    getIPv4RangeText (setIPv4Range initIPv4RangeState
      ['2', '.', '0', '.', '0', '.', '0', '-', '1', '.', '0', '.', '0', '.', '0']).1
        ≠ none := by
  refine ⟨by decide, by decide, by decide⟩

/-- C2, amended: a failing assignment never touches the stored subnet list
(so `getSubnetTexts` is unaffected), and an assignment whose address
validation fails leaves the whole handle unchanged; but an assignment that
validates and then fails the order check `start <= end` has already
overwritten the two endpoint fields, so failure CAN leave partial state —
the original all-failures claim is false. -/
theorem claim_C2_amended :
    (∀ (st : IPv4RangeState) (str : List Char), (setIPv4Range st str).2 = false →
      (setIPv4Range st str).1.arraySubnet = st.arraySubnet) ∧
    (∀ (st : IPv6RangeState) (str : List Char), (setIPv6Range st str).2 = false →
      (setIPv6Range st str).1.arraySubnet = st.arraySubnet) ∧
    (∀ (st : IPv4RangeState) (str : List Char), ipv4AddrOk str = false →
      setIPv4Range st str = (st, false)) ∧
    (∀ (st : IPv6RangeState) (str : List Char), ipv6AddrOk str = false →
      setIPv6Range st str = (st, false)) := by
  refine ⟨?_, ?_, ?_, ?_⟩
  · intro st str h
    rcases setIPv4Range_analysis st str with ⟨_, heq⟩ | ⟨_, _, _, _, hsubf, _⟩
    · rw [heq]
    · exact hsubf h
  · intro st str h
    rcases setIPv6Range_analysis st str with ⟨_, heq⟩ | ⟨_, _, hsubf⟩
    · rw [heq]
    · exact hsubf h
  · intro st str h
    rcases setIPv4Range_analysis st str with ⟨_, heq⟩ | ⟨hok, _⟩
    · exact heq
    · rw [h] at hok
      exact Bool.noConfusion hok
  · intro st str h
    rcases setIPv6Range_analysis st str with ⟨_, heq⟩ | ⟨hok, _⟩
    · exact heq
    · rw [h] at hok
      exact Bool.noConfusion hok

theorem getIPv4RangeText_ne_none (st : IPv4RangeState) :
    getIPv4RangeText st ≠ none ↔ st.intStartAddr ≠ none ∧ st.intEndAddr ≠ none := by
  unfold getIPv4RangeText
  rcases st.intStartAddr with _ | a <;> rcases st.intEndAddr with _ | b <;> simp

theorem runIPv4_subnet (hist : List (List Char)) : ∀ st : IPv4RangeState,
    ((runIPv4Sets st hist).arraySubnet ≠ none ↔
      (st.arraySubnet ≠ none ∨
        ∃ s ∈ hist, (setIPv4Range initIPv4RangeState s).2 = true)) := by
  induction hist with
  | nil =>
    intro st
    simp [runIPv4Sets]
  | cons s rest ih =>
    intro st
    have hstep : runIPv4Sets st (s :: rest) = runIPv4Sets (setIPv4Range st s).1 rest := rfl
    rw [hstep, ih]
    rcases setIPv4Range_analysis st s with ⟨hok, heq⟩ | ⟨hok, hfs, hfe, hsubt, hsubf, hsnd⟩
    · have hinit : (setIPv4Range initIPv4RangeState s).2 = false := by
        rcases setIPv4Range_analysis initIPv4RangeState s with ⟨_, heq2⟩ | ⟨hok2, _⟩
        · rw [heq2]
        · rw [hok2] at hok
          exact Bool.noConfusion hok
      rw [heq]
      simp only [List.mem_cons, exists_eq_or_imp, hinit]
      constructor
      · intro h
        rcases h with h | h
        · exact Or.inl h
        · exact Or.inr (Or.inr h)
      · intro h
        rcases h with h | h | h
        · exact Or.inl h
        · exact Bool.noConfusion h
        · exact Or.inr h
    · by_cases hv : (setIPv4Range st s).2 = true
      · obtain ⟨l, hl⟩ := hsubt hv
        have hinit : (setIPv4Range initIPv4RangeState s).2 = true := hsnd.symm.trans hv
        rw [hl]
        simp [hinit]
      · have hvf : (setIPv4Range st s).2 = false := by
          cases h : (setIPv4Range st s).2
          · rfl
          · exact absurd h hv
        have hinit : (setIPv4Range initIPv4RangeState s).2 = false := hsnd.symm.trans hvf
        rw [hsubf hvf]
        simp only [List.mem_cons, exists_eq_or_imp, hinit]
        constructor
        · intro h
          rcases h with h | h
          · exact Or.inl h
          · exact Or.inr (Or.inr h)
        · intro h
          rcases h with h | h | h
          · exact Or.inl h
          · exact Bool.noConfusion h
          · exact Or.inr h

theorem runIPv4_fields (hist : List (List Char)) : ∀ st : IPv4RangeState,
    (((runIPv4Sets st hist).intStartAddr ≠ none ∧ (runIPv4Sets st hist).intEndAddr ≠ none) ↔
      ((st.intStartAddr ≠ none ∧ st.intEndAddr ≠ none) ∨
        ∃ s ∈ hist, ipv4AddrOk s = true)) := by
  induction hist with
  | nil =>
    intro st
    simp [runIPv4Sets]
  | cons s rest ih =>
    intro st
    have hstep : runIPv4Sets st (s :: rest) = runIPv4Sets (setIPv4Range st s).1 rest := rfl
    rw [hstep, ih]
    rcases setIPv4Range_analysis st s with ⟨hok, heq⟩ | ⟨hok, hfs, hfe, _, _, _⟩
    · rw [heq]
      simp only [List.mem_cons, exists_eq_or_imp, hok]
      constructor
      · intro h
        rcases h with h | h
        · exact Or.inl h
        · exact Or.inr (Or.inr h)
      · intro h
        rcases h with h | h | h
        · exact Or.inl h
        · exact Bool.noConfusion h
        · exact Or.inr h
    · simp only [List.mem_cons, exists_eq_or_imp, hok]
      constructor
      · intro _
        exact Or.inr (Or.inl trivial)
      · intro _
        exact Or.inl ⟨hfs, hfe⟩

/-- C7 counterexample: a freshly constructed handle has never completed a
successful assignment — its one and only assignment `'9.0.0.0-8.0.0.0'`
throws on the order check — yet afterwards the range accessor does NOT
fail with the range-not-set error: the failing setter had already stored
both endpoints.  (The subnet accessor does still fail.) -/
theorem claim_C7_counterexample :
    getIPv4RangeText initIPv4RangeState = none ∧
    getIPv4SubnetTexts initIPv4RangeState = none ∧
    (setIPv4Range initIPv4RangeState
      ['9', '.', '0', '.', '0', '.', '0', '-', '8', '.', '0', '.', '0', '.', '0']).2
        = false ∧
    getIPv4RangeText (setIPv4Range initIPv4RangeState
      ['9', '.', '0', '.', '0', '.', '0', '-', '8', '.', '0', '.', '0', '.', '0']).1
        ≠ none := by
  refine ⟨by decide, by decide, by decide, by decide⟩

/-- C7, amended: over every history of assignments on a fresh IPv4 handle,
the SUBNET accessor fails iff no assignment in the history returned
successfully, but the RANGE accessor fails iff no assignment in the
history passed address validation — an assignment that validated and then
threw on the order check already installed both endpoints, so after it the
range accessor succeeds although no assignment ever completed.  The
claimed "fails iff never completed a successful assignment" holds only for
the subnet accessor. -/
theorem claim_C7_accessors (hist : List (List Char)) :
    (getIPv4SubnetTexts (runIPv4Sets initIPv4RangeState hist) ≠ none ↔
      ∃ s ∈ hist, (setIPv4Range initIPv4RangeState s).2 = true) ∧
    (getIPv4RangeText (runIPv4Sets initIPv4RangeState hist) ≠ none ↔
      ∃ s ∈ hist, ipv4AddrOk s = true) := by
  constructor
  · have h := runIPv4_subnet hist initIPv4RangeState
    rw [show getIPv4SubnetTexts (runIPv4Sets initIPv4RangeState hist)
        = (runIPv4Sets initIPv4RangeState hist).arraySubnet from rfl, h]
    simp [initIPv4RangeState]
  · rw [getIPv4RangeText_ne_none, runIPv4_fields hist initIPv4RangeState]
    simp [initIPv4RangeState]

/-! ### C10: components after the second dash are ignored -/

theorem rangeParts_two {A B : List Char} (hA : '-' ∉ A) (hB : '-' ∉ B) :
    rangeParts (A ++ '-' :: B) = [A, B] := by
  unfold rangeParts
  have hc : (A ++ '-' :: B).contains '-' = true := by
    simp [List.contains_eq_any_beq]
  rw [if_pos hc, splitOnChar_sep_append '-' A B hA, splitOnChar_no_sep '-' B hB]

theorem rangeParts_three {A B : List Char} (C : List Char) (hA : '-' ∉ A) (hB : '-' ∉ B) :
    rangeParts (A ++ '-' :: (B ++ '-' :: C)) = A :: B :: splitOnChar '-' C := by
  unfold rangeParts
  have hc : (A ++ '-' :: (B ++ '-' :: C)).contains '-' = true := by
    simp [List.contains_eq_any_beq]
  rw [if_pos hc, splitOnChar_sep_append '-' A _ hA, splitOnChar_sep_append '-' B C hB]

/-- C10: an input with two or more dashes behaves exactly as if everything
after the second dash-separated component were deleted: the setters read
only entries 0 and 1 of the split, so `A-B-C` (with dash-free `A`, `B`)
gives the same state transition and the same success/failure as `A-B`, for
both address families and any `C` whatsoever. -/
theorem claim_C10_ignore_extra (st4 : IPv4RangeState) (st6 : IPv6RangeState)
    (A B C : List Char) (hA : '-' ∉ A) (hB : '-' ∉ B) :
    setIPv4Range st4 (A ++ '-' :: (B ++ '-' :: C)) = setIPv4Range st4 (A ++ '-' :: B) ∧
    setIPv6Range st6 (A ++ '-' :: (B ++ '-' :: C)) = setIPv6Range st6 (A ++ '-' :: B) := by
  constructor
  · simp only [setIPv4Range, rangeParts_two hA hB, rangeParts_three C hA hB]
    rfl
  · simp only [setIPv6Range, rangeParts_two hA hB, rangeParts_three C hA hB]
    rfl

theorem claim_C10_ignore_extra_witness :
    setIPv4Range initIPv4RangeState
        (['7', '.', '7', '.', '7', '.', '7'] ++ '-' ::
          (['8', '.', '8', '.', '8', '.', '8'] ++ '-' :: ['9', 'x'])) =
      setIPv4Range initIPv4RangeState
        (['7', '.', '7', '.', '7', '.', '7'] ++ '-' :: ['8', '.', '8', '.', '8', '.', '8']) ∧
    setIPv6Range initIPv6RangeState
        (['7', '.', '7', '.', '7', '.', '7'] ++ '-' ::
          (['8', '.', '8', '.', '8', '.', '8'] ++ '-' :: ['9', 'x'])) =
      setIPv6Range initIPv6RangeState
        (['7', '.', '7', '.', '7', '.', '7'] ++ '-' :: ['8', '.', '8', '.', '8', '.', '8']) :=
  claim_C10_ignore_extra initIPv4RangeState initIPv6RangeState
    ['7', '.', '7', '.', '7', '.', '7'] ['8', '.', '8', '.', '8', '.', '8'] ['9', 'x']
    (by decide) (by decide)

end IPRange
